import Mathlib

/-!
Shallow embedding of src/backend/src/dol.rs (the DOL image codec of
hallinbirch/romhack-compiler) together with theorems checking the
natural-language specification against it.

Modelling conventions:
* Byte buffers are `List Nat`; each entry stands for one `u8` value.
* Machine integers (`u32`) are `Nat` with explicit `% 2 ^ 32` wherever the
  Rust code performs a wrapping cast or wrapping arithmetic.
* Fallible code returns `Option`.  A Rust panic (slice index out of range,
  fixed-array index out of range, `BE::read_u32`/`BE::write_u32` on a short
  slice) and a `bail!` error are both deterministic, caller-visible aborts:
  both are modelled as `none`.
* In-place mutation is modelled by explicit state passing: `patch` returns
  the final image state together with a success flag, so that edits applied
  before an aborting edit remain visible, exactly as in the Rust code where
  the image is mutated in place.
-/

namespace Dol

/-- Section of a DOL image: a load address plus an owned byte buffer.
Mirrors `struct Section { address: u32, data: Box<[u8]> }`. -/
structure Section where
  address : Nat
  data : List Nat
deriving DecidableEq

/-- Default section used as the `List.getD` fallback in statements. -/
def defaultSection : Section := { address := 0, data := [] }

/-- Decoded image. Mirrors `struct DolFile`. -/
structure DolFile where
  text_sections : List Section
  data_sections : List Section
  bss_address : Nat
  bss_size : Nat
  entry_point : Nat
deriving DecidableEq

/-- On-disk fixed-layout header. Mirrors `struct DolHeader`; the six
fixed-size arrays are lists that are always built with lengths 7 or 11. -/
structure DolHeader where
  text_section_offsets : List Nat
  data_section_offsets : List Nat
  text_section_addresses : List Nat
  data_section_addresses : List Nat
  text_section_sizes : List Nat
  data_section_sizes : List Nat
  bss_address : Nat
  bss_size : Nat
  entry_point : Nat

/-- Patch request. Mirrors `assembler::Instruction { address: u32, data: u32 }`. -/
structure Instruction where
  address : Nat
  data : Nat
deriving DecidableEq

/-- Big-endian byte encoding of a `u32` value, as written by
`BE::write_u32`.  For `v < 2 ^ 32` these are the four base-256 digits;
larger inputs behave as `v % 2 ^ 32`, matching the `u32` type. -/
def beBytes (v : Nat) : List Nat :=
  [v / 2 ^ 24 % 256, v / 2 ^ 16 % 256, v / 2 ^ 8 % 256, v % 256]

/-- Mirrors `read_u32(&data[off..])`: the slice panics when `off > len` and
`BE::read_u32` panics when fewer than 4 bytes remain; both are `none`. -/
def read_u32 (data : List Nat) (off : Nat) : Option Nat :=
  if off + 4 ≤ data.length then
    some (data.getD off 0 * 2 ^ 24 + data.getD (off + 1) 0 * 2 ^ 16 +
      data.getD (off + 2) 0 * 2 ^ 8 + data.getD (off + 3) 0)
  else none

/-- Mirrors `write_u32(&mut data[off..], v)`: fails (panics) unless at least
4 bytes remain, otherwise overwrites exactly 4 bytes with the BE encoding. -/
def write_u32 (data : List Nat) (off v : Nat) : Option (List Nat) :=
  if off + 4 ≤ data.length then
    some (data.take off ++ beBytes v ++ data.drop (off + 4))
  else none

/-- Mirrors the Rust slice expression `data[start..stop]` (panics unless
`start ≤ stop ≤ data.len()`), followed by `to_vec`. -/
def sliceRange (data : List Nat) (start stop : Nat) : Option (List Nat) :=
  if start ≤ stop ∧ stop ≤ data.length then
    some ((data.drop start).take (stop - start))
  else none

/-- Loop body of `read_sections`: iterates slot indices `i, i+1, ...` with
`fuel` slots remaining (`fuel = max - i`).  Reads the offset, address and
length fields of each slot, stops at the first zero length, otherwise copies
`data[offset .. offset + length]` (the end index is the wrapping `u32` sum,
as in `(offset + length) as usize`). -/
def readSectionsAux (data : List Nat) (oOff aOff lOff : Nat) :
    Nat → Nat → Option (List Section)
  | 0, _ => some []
  | fuel + 1, i =>
    match read_u32 data (4 * i + oOff), read_u32 data (4 * i + aOff),
        read_u32 data (4 * i + lOff) with
    | some offset, some address, some length =>
      if length = 0 then some []
      else
        match sliceRange data offset ((offset + length) % 2 ^ 32) with
        | some bytes =>
          match readSectionsAux data oOff aOff lOff fuel (i + 1) with
          | some rest => some ({ address := address, data := bytes } :: rest)
          | none => none
        | none => none
    | _, _, _ => none

/-- Mirrors `read_sections(data, offsets_offset, addresses_offset,
lengths_offset, max)`. -/
def read_sections (data : List Nat) (oOff aOff lOff max : Nat) :
    Option (List Section) :=
  readSectionsAux data oOff aOff lOff max 0

/-- Mirrors `DolFile::parse`. -/
def DolFile.parse (data : List Nat) : Option DolFile := do
  let ts ← read_sections data 0x0 0x48 0x90 7
  let ds ← read_sections data 0x1c 0x64 0xac 11
  let ba ← read_u32 data 0xd8
  let bs ← read_u32 data 0xdc
  let ep ← read_u32 data 0xe0
  some { text_sections := ts, data_sections := ds, bss_address := ba,
         bss_size := bs, entry_point := ep }

/-- Mirrors `DolFile::append`: concatenates the section lists of `other`
onto those of `f`; every other field is untouched. -/
def DolFile.append (f other : DolFile) : DolFile :=
  { f with text_sections := f.text_sections ++ other.text_sections,
           data_sections := f.data_sections ++ other.data_sections }

/-- Mirrors the Rust fixed-array store `arr[i] = v`: fails (panics) when
`i` is out of bounds. -/
def setAt : List Nat → Nat → Nat → Option (List Nat)
  | [], _, _ => none
  | _ :: xs, 0, v => some (v :: xs)
  | x :: xs, n + 1, v => (setAt xs n v).map (fun ys => x :: ys)

/-- One serialization loop of `DolFile::to_bytes`: walks the sections,
storing the running file offset (cast to `u32`), the section address and
the buffer length (cast to `u32`) into the three header arrays at index
`i`, and appending the section bytes to the payload. -/
def toBytesLoop : List Section → List Nat → List Nat → List Nat → Nat → Nat →
    List Nat → Option (List Nat × List Nat × List Nat × Nat × List Nat)
  | [], offs, addrs, sizes, _, offset, payload =>
    some (offs, addrs, sizes, offset, payload)
  | s :: rest, offs, addrs, sizes, i, offset, payload => do
    let offs2 ← setAt offs i (offset % 2 ^ 32)
    let addrs2 ← setAt addrs i s.address
    let sizes2 ← setAt sizes i (s.data.length % 2 ^ 32)
    toBytesLoop rest offs2 addrs2 sizes2 (i + 1) (offset + s.data.length)
      (payload ++ s.data)

/-- Sequential `write_u32` calls at offsets `off, off + 4, ...`, one per
value, exactly as the loops of `DolHeader::to_bytes` perform them. -/
def writeAll : List Nat → Nat → List Nat → Option (List Nat)
  | data, _, [] => some data
  | data, off, v :: vs => (write_u32 data off v).bind fun d => writeAll d (off + 4) vs

/-- The header field values in the order `DolHeader::to_bytes` writes them. -/
def headerFields (h : DolHeader) : List Nat :=
  h.text_section_offsets ++ h.data_section_offsets ++
  h.text_section_addresses ++ h.data_section_addresses ++
  h.text_section_sizes ++ h.data_section_sizes ++
  [h.bss_address, h.bss_size, h.entry_point]

/-- Mirrors `DolHeader::to_bytes`: a zero-filled 256-byte buffer into which
all fields are written sequentially as big-endian `u32` values. -/
def DolHeader.to_bytes (h : DolHeader) : Option (List Nat) :=
  writeAll (List.replicate 256 0) 0 (headerFields h)

/-- Mirrors `DolFile::to_bytes`: fills the header arrays by walking code
sections then data sections with one running offset starting at 256, then
emits the 256-byte header followed by the packed payload. -/
def DolFile.to_bytes (f : DolFile) : Option (List Nat) := do
  let (toffs, taddrs, tsizes, o1, p1) ← toBytesLoop f.text_sections
    (List.replicate 7 0) (List.replicate 7 0) (List.replicate 7 0) 0 256 []
  let (doffs, daddrs, dsizes, _, p2) ← toBytesLoop f.data_sections
    (List.replicate 11 0) (List.replicate 11 0) (List.replicate 11 0) 0 o1 p1
  let header ← DolHeader.to_bytes
    { text_section_offsets := toffs, data_section_offsets := doffs,
      text_section_addresses := taddrs, data_section_addresses := daddrs,
      text_section_sizes := tsizes, data_section_sizes := dsizes,
      bss_address := f.bss_address, bss_size := f.bss_size,
      entry_point := f.entry_point }
  some (header ++ p2)

/-- The containment test of `DolFile::patch`:
`d.address <= a && d.address + d.data.len() as u32 > a`, where the length
cast and the addition are wrapping `u32` operations. -/
def sectionContains (s : Section) (a : Nat) : Bool :=
  decide (s.address ≤ a) &&
    decide (a < (s.address + s.data.length % 2 ^ 32) % 2 ^ 32)

/-- Applies one edit to a section list: finds the first section containing
the address and overwrites 4 bytes there.  `none` means no section matched;
`some none` means a section matched but the 4-byte write ran past the end of
its buffer (the `write_u32` panic); `some (some l)` is success. -/
def patchSections : List Section → Nat → Nat → Option (Option (List Section))
  | [], _, _ => none
  | s :: rest, a, v =>
    if sectionContains s a then
      some ((write_u32 s.data (a - s.address) v).map
        fun d => ({ address := s.address, data := d } : Section) :: rest)
    else
      (patchSections rest a v).map fun r => r.map fun l => s :: l

/-- One iteration of the `DolFile::patch` loop: code sections are searched
first, then data sections, mirroring `text.iter_mut().chain(data.iter_mut())`.
`none` models the abort (either the `bail!` for an unresolvable address or
the `write_u32` panic), which leaves the image unchanged. -/
def DolFile.applyInstruction (f : DolFile) (ins : Instruction) : Option DolFile :=
  match patchSections f.text_sections ins.address ins.data with
  | some r => r.map fun l => { f with text_sections := l }
  | none =>
    match patchSections f.data_sections ins.address ins.data with
    | some r => r.map fun l => { f with data_sections := l }
    | none => none

/-- Mirrors `DolFile::patch`: edits are processed in order, mutating the
image in place; the first failing edit aborts the batch.  The returned
image is the state at the abort (earlier edits stay applied); the boolean
is the success flag (`Ok(())` versus the abort). -/
def DolFile.patch : DolFile → List Instruction → DolFile × Bool
  | f, [] => (f, true)
  | f, ins :: rest =>
    match f.applyInstruction ins with
    | some f2 => DolFile.patch f2 rest
    | none => (f, false)

/-- Sum of the section buffer lengths, the payload size of a section list. -/
def sumLen : List Section → Nat
  | [] => 0
  | s :: rest => s.data.length + sumLen rest

/-- Concatenated payload of a section list, in order. -/
def payloadOf : List Section → List Nat
  | [] => []
  | s :: rest => s.data ++ payloadOf rest

/-- The offset table values assigned by a `to_bytes` loop that starts with
running offset `o`: each section gets the current offset cast to `u32`. -/
def offsetsOf (o : Nat) : List Section → List Nat
  | [] => []
  | s :: rest => o % 2 ^ 32 :: offsetsOf (o + s.data.length) rest

/-- Concatenated big-endian encodings of a list of field values. -/
def encodeFields : List Nat → List Nat
  | [] => []
  | v :: vs => beBytes v ++ encodeFields vs

/-! Basic lemmas about the byte-level primitives. -/

theorem beBytes_length (v : Nat) : (beBytes v).length = 4 := rfl

theorem encodeFields_length (vs : List Nat) :
    (encodeFields vs).length = 4 * vs.length := by
  induction vs with
  | nil => rfl
  | cons v vs ih => simp [encodeFields, beBytes, ih]; omega

theorem append_getD_right (A B : List Nat) (k : Nat) :
    (A ++ B).getD (A.length + k) 0 = B.getD k 0 := by
  rw [List.getD_append_right A B 0 (A.length + k) (by omega)]
  congr 1
  omega

theorem append_getD_left (A B : List Nat) (k : Nat) (h : k < A.length) :
    (A ++ B).getD k 0 = A.getD k 0 :=
  List.getD_append _ _ _ _ h

theorem read_u32_append (A B : List Nat) (k : Nat) :
    read_u32 (A ++ B) (A.length + k) = read_u32 B k := by
  have g : ∀ i, (A ++ B).getD (A.length + k + i) 0 = B.getD (k + i) 0 := by
    intro i
    rw [show A.length + k + i = A.length + (k + i) by omega]
    exact append_getD_right A B (k + i)
  unfold read_u32
  by_cases h : k + 4 ≤ B.length
  · rw [if_pos (by simp only [List.length_append]; omega), if_pos h]
    have g0 := g 0
    rw [Nat.add_zero] at g0
    rw [g0, g 1, g 2, g 3, Nat.add_zero]
  · rw [if_neg (by simp only [List.length_append]; omega), if_neg h]

theorem read_u32_encode (v : Nat) (B : List Nat) :
    read_u32 (beBytes v ++ B) 0 = some (v % 2 ^ 32) := by
  unfold read_u32 beBytes
  rw [if_pos (by simp [beBytes])]
  have h0 : (beBytes v ++ B).getD 0 0 = v / 2 ^ 24 % 256 := rfl
  have h1 : (beBytes v ++ B).getD 1 0 = v / 2 ^ 16 % 256 := rfl
  have h2 : (beBytes v ++ B).getD 2 0 = v / 2 ^ 8 % 256 := rfl
  have h3 : (beBytes v ++ B).getD 3 0 = v % 256 := rfl
  unfold beBytes at h0 h1 h2 h3
  rw [show (0 : Nat) + 1 = 1 from rfl, show (0 : Nat) + 2 = 2 from rfl,
    show (0 : Nat) + 3 = 3 from rfl, h0, h1, h2, h3]
  exact congrArg some (by omega)

theorem fieldRead (vs : List Nat) (T : List Nat) : ∀ j, j < vs.length →
    read_u32 (encodeFields vs ++ T) (4 * j) = some (vs.getD j 0 % 2 ^ 32) := by
  induction vs with
  | nil => intro j h; simp at h
  | cons v vs ih =>
    intro j h
    rw [show encodeFields (v :: vs) ++ T = beBytes v ++ (encodeFields vs ++ T) by
      simp [encodeFields]]
    cases j with
    | zero => simpa using read_u32_encode v (encodeFields vs ++ T)
    | succ j =>
      rw [show 4 * (j + 1) = (beBytes v).length + 4 * j by
        rw [beBytes_length]; omega]
      rw [read_u32_append]
      simpa using ih j (by simpa using h)

/-! Lemmas about the serialization primitives. -/

theorem drop_append_right (X Y : List Nat) (k : Nat) :
    (X ++ Y).drop (X.length + k) = Y.drop k := by
  induction X with
  | nil => simp
  | cons x X ih => simp [Nat.succ_add, ih]

theorem length_take_of_le {l : List Nat} {n : Nat} (h : n ≤ l.length) :
    (l.take n).length = n := by
  simp [List.length_take]; omega

theorem write_u32_some (data : List Nat) (off v : Nat) (h : off + 4 ≤ data.length) :
    write_u32 data off v = some (data.take off ++ beBytes v ++ data.drop (off + 4)) := by
  unfold write_u32
  rw [if_pos h]

theorem writeAll_spec (vs : List Nat) : ∀ (data : List Nat) (off : Nat),
    off + 4 * vs.length ≤ data.length →
    writeAll data off vs
      = some (data.take off ++ encodeFields vs ++ data.drop (off + 4 * vs.length)) := by
  induction vs with
  | nil =>
    intro data off h
    simp [writeAll, encodeFields, List.take_append_drop]
  | cons v vs ih =>
    intro data off h
    have h4 : off + 4 ≤ data.length := by simp at h; omega
    unfold writeAll
    rw [write_u32_some data off v h4, Option.some_bind]
    have hlen : (data.take off ++ beBytes v ++ data.drop (off + 4)).length = data.length := by
      simp [beBytes, length_take_of_le (show off ≤ data.length by omega)]
      omega
    rw [ih _ (off + 4) (by rw [hlen]; simp at h ⊢; omega)]
    congr 1
    have hassoc : data.take off ++ beBytes v ++ data.drop (off + 4)
        = (data.take off ++ beBytes v) ++ data.drop (off + 4) := by
      simp [List.append_assoc]
    have hplen : (data.take off ++ beBytes v).length = off + 4 := by
      simp [beBytes, length_take_of_le (show off ≤ data.length by omega)]
    have htake : (data.take off ++ beBytes v ++ data.drop (off + 4)).take (off + 4)
        = data.take off ++ beBytes v := by
      rw [hassoc, ← hplen, List.take_left]
    have hdrop : ∀ k, (data.take off ++ beBytes v ++ data.drop (off + 4)).drop (off + 4 + k)
        = data.drop (off + 4 + k) := by
      intro k
      rw [hassoc, show off + 4 + k = (data.take off ++ beBytes v).length + k by rw [hplen],
        drop_append_right, List.drop_drop]
      congr 1
      omega
    rw [htake, hdrop]
    simp [encodeFields, List.append_assoc]
    congr 1
    omega

theorem setAt_spec : ∀ (A : List Nat) (i v : Nat), i < A.length →
    setAt A i v = some (A.take i ++ v :: A.drop (i + 1))
  | [], i, v, h => absurd h (by simp)
  | x :: xs, 0, v, _ => by simp [setAt]
  | x :: xs, i + 1, v, h => by
    have ih := setAt_spec xs i v (by simpa using h)
    simp [setAt, ih]

theorem setAt_none : ∀ (A : List Nat) (i v : Nat), A.length ≤ i → setAt A i v = none
  | [], _, _, _ => rfl
  | x :: xs, 0, v, h => absurd h (by simp)
  | x :: xs, i + 1, v, h => by
    have ih := setAt_none xs i v (by simpa using h)
    simp [setAt, ih]

theorem upd_length (A : List Nat) (i v : Nat) (h : i < A.length) :
    (A.take i ++ v :: A.drop (i + 1)).length = A.length := by
  simp [length_take_of_le (show i ≤ A.length by omega)]
  omega

theorem upd_take (A : List Nat) (i v : Nat) (h : i < A.length) :
    (A.take i ++ v :: A.drop (i + 1)).take (i + 1) = A.take i ++ [v] := by
  rw [show A.take i ++ v :: A.drop (i + 1) = (A.take i ++ [v]) ++ A.drop (i + 1) by simp]
  rw [show i + 1 = (A.take i ++ [v]).length by
    simp [length_take_of_le (show i ≤ A.length by omega)]]
  exact List.take_left ..

theorem upd_drop (A : List Nat) (i v k : Nat) (h : i < A.length) :
    (A.take i ++ v :: A.drop (i + 1)).drop (i + 1 + k) = A.drop (i + 1 + k) := by
  rw [show A.take i ++ v :: A.drop (i + 1) = (A.take i ++ [v]) ++ A.drop (i + 1) by simp]
  rw [show i + 1 + k = (A.take i ++ [v]).length + k by
    simp [length_take_of_le (show i ≤ A.length by omega)]]
  rw [drop_append_right, List.drop_drop]
  congr 1
  simp [length_take_of_le (show i ≤ A.length by omega)]

theorem offsetsOf_length (o : Nat) (secs : List Section) :
    (offsetsOf o secs).length = secs.length := by
  induction secs generalizing o with
  | nil => rfl
  | cons s rest ih => simp [offsetsOf, ih]

theorem payloadOf_length (secs : List Section) :
    (payloadOf secs).length = sumLen secs := by
  induction secs with
  | nil => rfl
  | cons s rest ih => simp [payloadOf, sumLen, ih]

theorem sumLen_append (A B : List Section) :
    sumLen (A ++ B) = sumLen A + sumLen B := by
  induction A with
  | nil => simp [sumLen]
  | cons s rest ih => simp [sumLen, ih]; omega

theorem toBytesLoop_spec (secs : List Section) :
    ∀ (offs addrs sizes : List Nat) (i o : Nat) (p : List Nat),
    i + secs.length ≤ offs.length → i + secs.length ≤ addrs.length →
    i + secs.length ≤ sizes.length →
    toBytesLoop secs offs addrs sizes i o p = some
      (offs.take i ++ offsetsOf o secs ++ offs.drop (i + secs.length),
       addrs.take i ++ secs.map Section.address ++ addrs.drop (i + secs.length),
       sizes.take i ++ secs.map (fun s => s.data.length % 2 ^ 32) ++
         sizes.drop (i + secs.length),
       o + sumLen secs, p ++ payloadOf secs) := by
  induction secs with
  | nil =>
    intro offs addrs sizes i o p _ _ _
    simp [toBytesLoop, offsetsOf, sumLen, payloadOf, List.take_append_drop]
  | cons s rest ih =>
    intro offs addrs sizes i o p h1 h2 h3
    have hi1 : i < offs.length := by simp at h1; omega
    have hi2 : i < addrs.length := by simp at h2; omega
    have hi3 : i < sizes.length := by simp at h3; omega
    unfold toBytesLoop
    rw [setAt_spec offs i _ hi1, setAt_spec addrs i _ hi2, setAt_spec sizes i _ hi3]
    simp only [Option.bind_eq_bind, Option.some_bind]
    rw [ih _ _ _ (i + 1) (o + s.data.length) (p ++ s.data)
      (by rw [upd_length offs i _ hi1]; simp at h1 ⊢; omega)
      (by rw [upd_length addrs i _ hi2]; simp at h2 ⊢; omega)
      (by rw [upd_length sizes i _ hi3]; simp at h3 ⊢; omega)]
    have hidx : i + (s :: rest).length = i + 1 + rest.length := by simp; omega
    simp only [Option.some.injEq, Prod.mk.injEq]
    refine ⟨?_, ?_, ?_, ?_, ?_⟩
    · rw [upd_take offs i _ hi1, upd_drop offs i _ rest.length hi1, hidx]
      simp [offsetsOf, List.append_assoc]
    · rw [upd_take addrs i _ hi2, upd_drop addrs i _ rest.length hi2, hidx]
      simp [List.append_assoc]
    · rw [upd_take sizes i _ hi3, upd_drop sizes i _ rest.length hi3, hidx]
      simp [List.append_assoc]
    · simp [sumLen]
      omega
    · simp [payloadOf, List.append_assoc]

theorem toBytesLoop_none (secs : List Section) :
    ∀ (offs addrs sizes : List Nat) (i o : Nat) (p : List Nat),
    offs.length = addrs.length → addrs.length = sizes.length →
    offs.length - i < secs.length →
    toBytesLoop secs offs addrs sizes i o p = none := by
  induction secs with
  | nil => intro offs addrs sizes i o p _ _ h; simp at h
  | cons s rest ih =>
    intro offs addrs sizes i o p hl1 hl2 h
    by_cases hi : i < offs.length
    · unfold toBytesLoop
      rw [setAt_spec offs i _ hi, setAt_spec addrs i _ (by omega),
        setAt_spec sizes i _ (by omega)]
      simp only [Option.bind_eq_bind, Option.some_bind]
      exact ih _ _ _ (i + 1) (o + s.data.length) (p ++ s.data)
        (by rw [upd_length offs i _ hi, upd_length addrs i _ (by omega)]; exact hl1)
        (by rw [upd_length addrs i _ (by omega), upd_length sizes i _ (by omega)]; exact hl2)
        (by rw [upd_length offs i _ hi]; simp at h ⊢; omega)
    · unfold toBytesLoop
      rw [setAt_none offs i _ (by omega)]
      rfl

/-! Lemmas about the decoding primitives. -/

theorem slice_exact (A B C : List Nat) :
    sliceRange (A ++ (B ++ C)) A.length (A.length + B.length) = some B := by
  unfold sliceRange
  rw [if_pos ⟨by omega, by simp⟩]
  congr 1
  rw [show A.length + B.length - A.length = B.length by omega, List.drop_left]
  exact List.take_left ..

theorem payload_slice (secs : List Section) :
    ∀ (m : Nat) (P Q : List Nat), m < secs.length →
    sliceRange (P ++ (payloadOf secs ++ Q)) (P.length + sumLen (secs.take m))
        (P.length + sumLen (secs.take m) + (secs.getD m defaultSection).data.length)
      = some ((secs.getD m defaultSection).data) := by
  induction secs with
  | nil => intro m P Q h; simp at h
  | cons s rest ih =>
    intro m P Q h
    cases m with
    | zero =>
      simp only [List.take_zero, sumLen, Nat.add_zero, List.getD_cons_zero]
      rw [show payloadOf (s :: rest) ++ Q = s.data ++ (payloadOf rest ++ Q) by
        simp [payloadOf, List.append_assoc]]
      exact slice_exact P s.data (payloadOf rest ++ Q)
    | succ m =>
      have ihm := ih m (P ++ s.data) Q (by simpa using h)
      rw [show P ++ (payloadOf (s :: rest) ++ Q) = (P ++ s.data) ++ (payloadOf rest ++ Q) by
        simp [payloadOf, List.append_assoc]]
      rw [List.take_succ_cons, List.getD_cons_succ]
      rw [show P.length + sumLen (s :: rest.take m) = (P ++ s.data).length + sumLen (rest.take m) by
        simp [sumLen]; omega]
      exact ihm

theorem offsetsOf_getD (secs : List Section) : ∀ (o m : Nat), m < secs.length →
    (offsetsOf o secs).getD m 0 = (o + sumLen (secs.take m)) % 2 ^ 32 := by
  induction secs with
  | nil => intro o m h; simp at h
  | cons s rest ih =>
    intro o m h
    cases m with
    | zero => simp [offsetsOf, sumLen]
    | succ m =>
      rw [show offsetsOf o (s :: rest) = o % 2 ^ 32 :: offsetsOf (o + s.data.length) rest
        from rfl]
      rw [List.getD_cons_succ, ih (o + s.data.length) m (by simpa using h),
        List.take_succ_cons]
      congr 1
      simp [sumLen]
      omega

theorem map_getD_address : ∀ (secs : List Section) (m : Nat), m < secs.length →
    (secs.map Section.address).getD m 0 = (secs.getD m defaultSection).address
  | [], m, h => absurd h (by simp)
  | s :: rest, 0, _ => rfl
  | s :: rest, m + 1, h => by
    simpa using map_getD_address rest m (by simpa using h)

theorem map_getD_size : ∀ (secs : List Section) (m : Nat), m < secs.length →
    (secs.map (fun s => s.data.length % 2 ^ 32)).getD m 0
      = (secs.getD m defaultSection).data.length % 2 ^ 32
  | [], m, h => absurd h (by simp)
  | s :: rest, 0, _ => rfl
  | s :: rest, m + 1, h => by
    simpa using map_getD_size rest m (by simpa using h)

theorem replicate_getD (n k : Nat) : (List.replicate n (0 : Nat)).getD k 0 = 0 := by
  simp [List.getD]

theorem getD_mem : ∀ (secs : List Section) (m : Nat), m < secs.length →
    secs.getD m defaultSection ∈ secs
  | [], m, h => absurd h (by simp)
  | s :: rest, 0, _ => List.mem_cons_self ..
  | s :: rest, m + 1, h =>
    List.mem_cons_of_mem _ (getD_mem rest m (by simpa using h))

theorem sumLen_take_le : ∀ (secs : List Section) (m : Nat), m < secs.length →
    sumLen (secs.take m) + (secs.getD m defaultSection).data.length ≤ sumLen secs
  | [], m, h => absurd h (by simp)
  | s :: rest, 0, _ => by simp [sumLen]
  | s :: rest, m + 1, h => by
    have ihm := sumLen_take_le rest m (by simpa using h)
    rw [List.take_succ_cons, List.getD_cons_succ]
    simp only [sumLen]
    omega

theorem readSectionsAux_spec (data : List Nat) (oOff aOff lOff : Nat) (off : Nat → Nat)
    (secs : List Section) : ∀ (k i : Nat),
    secs.length ≤ k →
    (∀ m, m < secs.length →
      read_u32 data (4 * (i + m) + oOff) = some (off (i + m)) ∧
      read_u32 data (4 * (i + m) + aOff) = some ((secs.getD m defaultSection).address) ∧
      read_u32 data (4 * (i + m) + lOff) = some ((secs.getD m defaultSection).data.length) ∧
      (secs.getD m defaultSection).data.length ≠ 0 ∧
      sliceRange data (off (i + m))
          ((off (i + m) + (secs.getD m defaultSection).data.length) % 2 ^ 32)
        = some ((secs.getD m defaultSection).data)) →
    (secs.length < k →
      ∃ o2 a2, read_u32 data (4 * (i + secs.length) + oOff) = some o2 ∧
        read_u32 data (4 * (i + secs.length) + aOff) = some a2 ∧
        read_u32 data (4 * (i + secs.length) + lOff) = some 0) →
    readSectionsAux data oOff aOff lOff k i = some secs := by
  induction secs with
  | nil =>
    intro k i _ _ hterm
    cases k with
    | zero => rfl
    | succ k =>
      obtain ⟨o2, a2, h1, h2, h3⟩ := hterm (by simp)
      simp only [List.length_nil, Nat.add_zero] at h1 h2 h3
      unfold readSectionsAux
      rw [h1, h2, h3]
      rfl
  | cons s rest ih =>
    intro k i hk hfields hterm
    cases k with
    | zero => simp at hk
    | succ k =>
      obtain ⟨ho, ha, hl, hnz, hs⟩ := hfields 0 (by simp)
      simp only [Nat.add_zero, List.getD_cons_zero] at ho ha hl hnz hs
      have hrest : readSectionsAux data oOff aOff lOff k (i + 1) = some rest := by
        refine ih k (i + 1) (by simpa using hk) ?_ ?_
        · intro m hm
          have hm1 := hfields (m + 1) (by simp; omega)
          simpa [show i + 1 + m = i + (m + 1) by omega] using hm1
        · intro hlen
          have ht := hterm (by simp; omega)
          simpa [show i + 1 + rest.length = i + (s :: rest).length by simp; omega] using ht
      obtain ⟨saddr, sdata⟩ := s
      unfold readSectionsAux
      rw [ho, ha, hl]
      simp only [hnz, if_false]
      rw [hs, hrest]

/-! The header field list produced by serializing an image, and where each
field lands.  The chunk order matches `DolHeader::to_bytes`: code offsets,
data offsets, code addresses, data addresses, code sizes, data sizes, BSS
address, BSS size, entry point. -/

def fieldsOf (f : DolFile) : List Nat :=
  (offsetsOf 256 f.text_sections ++ List.replicate (7 - f.text_sections.length) 0) ++
  (offsetsOf (256 + sumLen f.text_sections) f.data_sections ++
    List.replicate (11 - f.data_sections.length) 0) ++
  (f.text_sections.map Section.address ++ List.replicate (7 - f.text_sections.length) 0) ++
  (f.data_sections.map Section.address ++ List.replicate (11 - f.data_sections.length) 0) ++
  (f.text_sections.map (fun s => s.data.length % 2 ^ 32) ++
    List.replicate (7 - f.text_sections.length) 0) ++
  (f.data_sections.map (fun s => s.data.length % 2 ^ 32) ++
    List.replicate (11 - f.data_sections.length) 0) ++
  [f.bss_address, f.bss_size, f.entry_point]

theorem skip_chunk (A B : List Nat) (n k : Nat) (h : A.length = n) :
    (A ++ B).getD (n + k) 0 = B.getD k 0 := by
  rw [← h]
  exact append_getD_right A B k

theorem skip_chunk_exact (A B : List Nat) (n : Nat) (h : A.length = n) :
    (A ++ B).getD n 0 = B.getD 0 0 := by
  have hk := append_getD_right A B 0
  rw [Nat.add_zero, h] at hk
  exact hk

theorem DolHeader_to_bytes_eq (h : DolHeader) (hl : (headerFields h).length = 57) :
    DolHeader.to_bytes h = some (encodeFields (headerFields h) ++ List.replicate 28 0) := by
  unfold DolHeader.to_bytes
  rw [writeAll_spec (headerFields h) (List.replicate 256 0) 0
    (by rw [hl, List.length_replicate]; omega)]
  rw [hl]
  norm_num [List.drop_replicate]

theorem to_bytes_eq (f : DolFile) (h7 : f.text_sections.length ≤ 7)
    (h11 : f.data_sections.length ≤ 11) :
    DolFile.to_bytes f = some (encodeFields (fieldsOf f) ++
      (List.replicate 28 0 ++
        (payloadOf f.text_sections ++ payloadOf f.data_sections))) := by
  have hT := toBytesLoop_spec f.text_sections (List.replicate 7 0) (List.replicate 7 0)
    (List.replicate 7 0) 0 256 [] (by simpa using h7) (by simpa using h7) (by simpa using h7)
  simp only [List.take_zero, List.nil_append, Nat.zero_add, List.drop_replicate] at hT
  have hD := toBytesLoop_spec f.data_sections (List.replicate 11 0) (List.replicate 11 0)
    (List.replicate 11 0) 0 (256 + sumLen f.text_sections) (payloadOf f.text_sections)
    (by simpa using h11) (by simpa using h11) (by simpa using h11)
  simp only [List.take_zero, List.nil_append, Nat.zero_add, List.drop_replicate] at hD
  unfold DolFile.to_bytes
  rw [hT]
  simp only [Option.bind_eq_bind, Option.some_bind]
  rw [hD]
  simp only [Option.bind_eq_bind, Option.some_bind]
  rw [DolHeader_to_bytes_eq _ (by
    simp [headerFields, offsetsOf_length]
    omega)]
  simp only [Option.bind_eq_bind, Option.some_bind, Option.some.injEq]
  simp [headerFields, fieldsOf, List.append_assoc]

theorem fieldsOf_length (f : DolFile) (h7 : f.text_sections.length ≤ 7)
    (h11 : f.data_sections.length ≤ 11) : (fieldsOf f).length = 57 := by
  simp [fieldsOf, offsetsOf_length]
  omega

theorem fields_read (f : DolFile) (h7 : f.text_sections.length ≤ 7)
    (h11 : f.data_sections.length ≤ 11) (j : Nat) (hj : j < 57) (tail : List Nat) :
    read_u32 (encodeFields (fieldsOf f) ++ tail) (4 * j)
      = some ((fieldsOf f).getD j 0 % 2 ^ 32) :=
  fieldRead (fieldsOf f) tail j (by rw [fieldsOf_length f h7 h11]; omega)

theorem fieldsOf_toff (f : DolFile) (m : Nat) (hm : m < f.text_sections.length) :
    (fieldsOf f).getD m 0 = (256 + sumLen (f.text_sections.take m)) % 2 ^ 32 := by
  unfold fieldsOf
  simp only [List.append_assoc]
  rw [append_getD_left _ _ m (by rw [offsetsOf_length]; exact hm)]
  exact offsetsOf_getD f.text_sections 256 m hm

theorem fieldsOf_doff (f : DolFile) (h7 : f.text_sections.length ≤ 7) (m : Nat)
    (hm : m < f.data_sections.length) :
    (fieldsOf f).getD (7 + m) 0
      = (256 + sumLen f.text_sections + sumLen (f.data_sections.take m)) % 2 ^ 32 := by
  unfold fieldsOf
  simp only [List.append_assoc]
  rw [show 7 + m = (f.text_sections.length) + ((7 - f.text_sections.length) + (m)) by omega]
  rw [skip_chunk _ _ (f.text_sections.length) _ (offsetsOf_length 256 f.text_sections)]
  rw [skip_chunk _ _ (7 - f.text_sections.length) _ (List.length_replicate ..)]
  rw [append_getD_left _ _ m (by rw [offsetsOf_length]; exact hm)]
  exact offsetsOf_getD f.data_sections (256 + sumLen f.text_sections) m hm

theorem fieldsOf_taddr (f : DolFile) (h7 : f.text_sections.length ≤ 7)
    (h11 : f.data_sections.length ≤ 11) (m : Nat) (hm : m < f.text_sections.length) :
    (fieldsOf f).getD (18 + m) 0 = (f.text_sections.getD m defaultSection).address := by
  unfold fieldsOf
  simp only [List.append_assoc]
  rw [show 18 + m = (f.text_sections.length) + ((7 - f.text_sections.length) + ((f.data_sections.length) + ((11 - f.data_sections.length) + (m)))) by omega]
  rw [skip_chunk _ _ (f.text_sections.length) _ (offsetsOf_length 256 f.text_sections)]
  rw [skip_chunk _ _ (7 - f.text_sections.length) _ (List.length_replicate ..)]
  rw [skip_chunk _ _ (f.data_sections.length) _ (offsetsOf_length (256 + sumLen f.text_sections) f.data_sections)]
  rw [skip_chunk _ _ (11 - f.data_sections.length) _ (List.length_replicate ..)]
  rw [append_getD_left _ _ m (by simpa using hm)]
  exact map_getD_address f.text_sections m hm

theorem fieldsOf_daddr (f : DolFile) (h7 : f.text_sections.length ≤ 7)
    (h11 : f.data_sections.length ≤ 11) (m : Nat) (hm : m < f.data_sections.length) :
    (fieldsOf f).getD (25 + m) 0 = (f.data_sections.getD m defaultSection).address := by
  unfold fieldsOf
  simp only [List.append_assoc]
  rw [show 25 + m = (f.text_sections.length) + ((7 - f.text_sections.length) + ((f.data_sections.length) + ((11 - f.data_sections.length) + ((f.text_sections.length) + ((7 - f.text_sections.length) + (m)))))) by omega]
  rw [skip_chunk _ _ (f.text_sections.length) _ (offsetsOf_length 256 f.text_sections)]
  rw [skip_chunk _ _ (7 - f.text_sections.length) _ (List.length_replicate ..)]
  rw [skip_chunk _ _ (f.data_sections.length) _ (offsetsOf_length (256 + sumLen f.text_sections) f.data_sections)]
  rw [skip_chunk _ _ (11 - f.data_sections.length) _ (List.length_replicate ..)]
  rw [skip_chunk _ _ (f.text_sections.length) _ (List.length_map ..)]
  rw [skip_chunk _ _ (7 - f.text_sections.length) _ (List.length_replicate ..)]
  rw [append_getD_left _ _ m (by simpa using hm)]
  exact map_getD_address f.data_sections m hm

theorem fieldsOf_tsize (f : DolFile) (h7 : f.text_sections.length ≤ 7)
    (h11 : f.data_sections.length ≤ 11) (m : Nat) (hm : m < f.text_sections.length) :
    (fieldsOf f).getD (36 + m) 0
      = (f.text_sections.getD m defaultSection).data.length % 2 ^ 32 := by
  unfold fieldsOf
  simp only [List.append_assoc]
  rw [show 36 + m = (f.text_sections.length) + ((7 - f.text_sections.length) + ((f.data_sections.length) + ((11 - f.data_sections.length) + ((f.text_sections.length) + ((7 - f.text_sections.length) + ((f.data_sections.length) + ((11 - f.data_sections.length) + (m)))))))) by omega]
  rw [skip_chunk _ _ (f.text_sections.length) _ (offsetsOf_length 256 f.text_sections)]
  rw [skip_chunk _ _ (7 - f.text_sections.length) _ (List.length_replicate ..)]
  rw [skip_chunk _ _ (f.data_sections.length) _ (offsetsOf_length (256 + sumLen f.text_sections) f.data_sections)]
  rw [skip_chunk _ _ (11 - f.data_sections.length) _ (List.length_replicate ..)]
  rw [skip_chunk _ _ (f.text_sections.length) _ (List.length_map ..)]
  rw [skip_chunk _ _ (7 - f.text_sections.length) _ (List.length_replicate ..)]
  rw [skip_chunk _ _ (f.data_sections.length) _ (List.length_map ..)]
  rw [skip_chunk _ _ (11 - f.data_sections.length) _ (List.length_replicate ..)]
  rw [append_getD_left _ _ m (by simpa using hm)]
  exact map_getD_size f.text_sections m hm

theorem fieldsOf_tsize_zero (f : DolFile) (h7 : f.text_sections.length ≤ 7)
    (h11 : f.data_sections.length ≤ 11) (htn : f.text_sections.length < 7) :
    (fieldsOf f).getD (36 + f.text_sections.length) 0 = 0 := by
  unfold fieldsOf
  simp only [List.append_assoc]
  rw [show 36 + f.text_sections.length
    = (f.text_sections.length) + ((7 - f.text_sections.length) + ((f.data_sections.length) + ((11 - f.data_sections.length) + ((f.text_sections.length) + ((7 - f.text_sections.length) + ((f.data_sections.length) + ((11 - f.data_sections.length) + ((f.text_sections.length) + (0))))))))) by omega]
  rw [skip_chunk _ _ (f.text_sections.length) _ (offsetsOf_length 256 f.text_sections)]
  rw [skip_chunk _ _ (7 - f.text_sections.length) _ (List.length_replicate ..)]
  rw [skip_chunk _ _ (f.data_sections.length) _ (offsetsOf_length (256 + sumLen f.text_sections) f.data_sections)]
  rw [skip_chunk _ _ (11 - f.data_sections.length) _ (List.length_replicate ..)]
  rw [skip_chunk _ _ (f.text_sections.length) _ (List.length_map ..)]
  rw [skip_chunk _ _ (7 - f.text_sections.length) _ (List.length_replicate ..)]
  rw [skip_chunk _ _ (f.data_sections.length) _ (List.length_map ..)]
  rw [skip_chunk _ _ (11 - f.data_sections.length) _ (List.length_replicate ..)]
  rw [skip_chunk _ _ (f.text_sections.length) _ (List.length_map ..)]
  rw [append_getD_left _ _ 0 (by simp; omega)]
  exact replicate_getD _ 0

theorem fieldsOf_dsize (f : DolFile) (h7 : f.text_sections.length ≤ 7)
    (h11 : f.data_sections.length ≤ 11) (m : Nat) (hm : m < f.data_sections.length) :
    (fieldsOf f).getD (43 + m) 0
      = (f.data_sections.getD m defaultSection).data.length % 2 ^ 32 := by
  unfold fieldsOf
  simp only [List.append_assoc]
  rw [show 43 + m = (f.text_sections.length) + ((7 - f.text_sections.length) + ((f.data_sections.length) + ((11 - f.data_sections.length) + ((f.text_sections.length) + ((7 - f.text_sections.length) + ((f.data_sections.length) + ((11 - f.data_sections.length) + ((f.text_sections.length) + ((7 - f.text_sections.length) + (m)))))))))) by omega]
  rw [skip_chunk _ _ (f.text_sections.length) _ (offsetsOf_length 256 f.text_sections)]
  rw [skip_chunk _ _ (7 - f.text_sections.length) _ (List.length_replicate ..)]
  rw [skip_chunk _ _ (f.data_sections.length) _ (offsetsOf_length (256 + sumLen f.text_sections) f.data_sections)]
  rw [skip_chunk _ _ (11 - f.data_sections.length) _ (List.length_replicate ..)]
  rw [skip_chunk _ _ (f.text_sections.length) _ (List.length_map ..)]
  rw [skip_chunk _ _ (7 - f.text_sections.length) _ (List.length_replicate ..)]
  rw [skip_chunk _ _ (f.data_sections.length) _ (List.length_map ..)]
  rw [skip_chunk _ _ (11 - f.data_sections.length) _ (List.length_replicate ..)]
  rw [skip_chunk _ _ (f.text_sections.length) _ (List.length_map ..)]
  rw [skip_chunk _ _ (7 - f.text_sections.length) _ (List.length_replicate ..)]
  rw [append_getD_left _ _ m (by simpa using hm)]
  exact map_getD_size f.data_sections m hm

theorem fieldsOf_dsize_zero (f : DolFile) (h7 : f.text_sections.length ≤ 7)
    (h11 : f.data_sections.length ≤ 11) (hdn : f.data_sections.length < 11) :
    (fieldsOf f).getD (43 + f.data_sections.length) 0 = 0 := by
  unfold fieldsOf
  simp only [List.append_assoc]
  rw [show 43 + f.data_sections.length
    = (f.text_sections.length) + ((7 - f.text_sections.length) + ((f.data_sections.length) + ((11 - f.data_sections.length) + ((f.text_sections.length) + ((7 - f.text_sections.length) + ((f.data_sections.length) + ((11 - f.data_sections.length) + ((f.text_sections.length) + ((7 - f.text_sections.length) + ((f.data_sections.length) + (0))))))))))) by omega]
  rw [skip_chunk _ _ (f.text_sections.length) _ (offsetsOf_length 256 f.text_sections)]
  rw [skip_chunk _ _ (7 - f.text_sections.length) _ (List.length_replicate ..)]
  rw [skip_chunk _ _ (f.data_sections.length) _ (offsetsOf_length (256 + sumLen f.text_sections) f.data_sections)]
  rw [skip_chunk _ _ (11 - f.data_sections.length) _ (List.length_replicate ..)]
  rw [skip_chunk _ _ (f.text_sections.length) _ (List.length_map ..)]
  rw [skip_chunk _ _ (7 - f.text_sections.length) _ (List.length_replicate ..)]
  rw [skip_chunk _ _ (f.data_sections.length) _ (List.length_map ..)]
  rw [skip_chunk _ _ (11 - f.data_sections.length) _ (List.length_replicate ..)]
  rw [skip_chunk _ _ (f.text_sections.length) _ (List.length_map ..)]
  rw [skip_chunk _ _ (7 - f.text_sections.length) _ (List.length_replicate ..)]
  rw [skip_chunk _ _ (f.data_sections.length) _ (List.length_map ..)]
  rw [append_getD_left _ _ 0 (by simp; omega)]
  exact replicate_getD _ 0

theorem fieldsOf_field54 (f : DolFile) (h7 : f.text_sections.length ≤ 7)
    (h11 : f.data_sections.length ≤ 11) :
    (fieldsOf f).getD 54 0 = f.bss_address := by
  unfold fieldsOf
  simp only [List.append_assoc]
  rw [show (54 : Nat)
    = (f.text_sections.length) + ((7 - f.text_sections.length) + ((f.data_sections.length) + ((11 - f.data_sections.length) + ((f.text_sections.length) + ((7 - f.text_sections.length) + ((f.data_sections.length) + ((11 - f.data_sections.length) + ((f.text_sections.length) + ((7 - f.text_sections.length) + ((f.data_sections.length) + ((11 - f.data_sections.length) + (0)))))))))))) by omega]
  rw [skip_chunk _ _ (f.text_sections.length) _ (offsetsOf_length 256 f.text_sections)]
  rw [skip_chunk _ _ (7 - f.text_sections.length) _ (List.length_replicate ..)]
  rw [skip_chunk _ _ (f.data_sections.length) _ (offsetsOf_length (256 + sumLen f.text_sections) f.data_sections)]
  rw [skip_chunk _ _ (11 - f.data_sections.length) _ (List.length_replicate ..)]
  rw [skip_chunk _ _ (f.text_sections.length) _ (List.length_map ..)]
  rw [skip_chunk _ _ (7 - f.text_sections.length) _ (List.length_replicate ..)]
  rw [skip_chunk _ _ (f.data_sections.length) _ (List.length_map ..)]
  rw [skip_chunk _ _ (11 - f.data_sections.length) _ (List.length_replicate ..)]
  rw [skip_chunk _ _ (f.text_sections.length) _ (List.length_map ..)]
  rw [skip_chunk _ _ (7 - f.text_sections.length) _ (List.length_replicate ..)]
  rw [skip_chunk _ _ (f.data_sections.length) _ (List.length_map ..)]
  rw [skip_chunk _ _ (11 - f.data_sections.length) _ (List.length_replicate ..)]
  rfl

theorem fieldsOf_field55 (f : DolFile) (h7 : f.text_sections.length ≤ 7)
    (h11 : f.data_sections.length ≤ 11) :
    (fieldsOf f).getD 55 0 = f.bss_size := by
  unfold fieldsOf
  simp only [List.append_assoc]
  rw [show (55 : Nat)
    = (f.text_sections.length) + ((7 - f.text_sections.length) + ((f.data_sections.length) + ((11 - f.data_sections.length) + ((f.text_sections.length) + ((7 - f.text_sections.length) + ((f.data_sections.length) + ((11 - f.data_sections.length) + ((f.text_sections.length) + ((7 - f.text_sections.length) + ((f.data_sections.length) + ((11 - f.data_sections.length) + (1)))))))))))) by omega]
  rw [skip_chunk _ _ (f.text_sections.length) _ (offsetsOf_length 256 f.text_sections)]
  rw [skip_chunk _ _ (7 - f.text_sections.length) _ (List.length_replicate ..)]
  rw [skip_chunk _ _ (f.data_sections.length) _ (offsetsOf_length (256 + sumLen f.text_sections) f.data_sections)]
  rw [skip_chunk _ _ (11 - f.data_sections.length) _ (List.length_replicate ..)]
  rw [skip_chunk _ _ (f.text_sections.length) _ (List.length_map ..)]
  rw [skip_chunk _ _ (7 - f.text_sections.length) _ (List.length_replicate ..)]
  rw [skip_chunk _ _ (f.data_sections.length) _ (List.length_map ..)]
  rw [skip_chunk _ _ (11 - f.data_sections.length) _ (List.length_replicate ..)]
  rw [skip_chunk _ _ (f.text_sections.length) _ (List.length_map ..)]
  rw [skip_chunk _ _ (7 - f.text_sections.length) _ (List.length_replicate ..)]
  rw [skip_chunk _ _ (f.data_sections.length) _ (List.length_map ..)]
  rw [skip_chunk _ _ (11 - f.data_sections.length) _ (List.length_replicate ..)]
  rfl

theorem fieldsOf_field56 (f : DolFile) (h7 : f.text_sections.length ≤ 7)
    (h11 : f.data_sections.length ≤ 11) :
    (fieldsOf f).getD 56 0 = f.entry_point := by
  unfold fieldsOf
  simp only [List.append_assoc]
  rw [show (56 : Nat)
    = (f.text_sections.length) + ((7 - f.text_sections.length) + ((f.data_sections.length) + ((11 - f.data_sections.length) + ((f.text_sections.length) + ((7 - f.text_sections.length) + ((f.data_sections.length) + ((11 - f.data_sections.length) + ((f.text_sections.length) + ((7 - f.text_sections.length) + ((f.data_sections.length) + ((11 - f.data_sections.length) + (2)))))))))))) by omega]
  rw [skip_chunk _ _ (f.text_sections.length) _ (offsetsOf_length 256 f.text_sections)]
  rw [skip_chunk _ _ (7 - f.text_sections.length) _ (List.length_replicate ..)]
  rw [skip_chunk _ _ (f.data_sections.length) _ (offsetsOf_length (256 + sumLen f.text_sections) f.data_sections)]
  rw [skip_chunk _ _ (11 - f.data_sections.length) _ (List.length_replicate ..)]
  rw [skip_chunk _ _ (f.text_sections.length) _ (List.length_map ..)]
  rw [skip_chunk _ _ (7 - f.text_sections.length) _ (List.length_replicate ..)]
  rw [skip_chunk _ _ (f.data_sections.length) _ (List.length_map ..)]
  rw [skip_chunk _ _ (11 - f.data_sections.length) _ (List.length_replicate ..)]
  rw [skip_chunk _ _ (f.text_sections.length) _ (List.length_map ..)]
  rw [skip_chunk _ _ (7 - f.text_sections.length) _ (List.length_replicate ..)]
  rw [skip_chunk _ _ (f.data_sections.length) _ (List.length_map ..)]
  rw [skip_chunk _ _ (11 - f.data_sections.length) _ (List.length_replicate ..)]
  rfl

/-! Reconstruction of the two section tables from the serialized bytes. -/

theorem read_text_of_to_bytes (f : DolFile) (h7 : f.text_sections.length ≤ 7)
    (h11 : f.data_sections.length ≤ 11)
    (hnz : ∀ s ∈ f.text_sections ++ f.data_sections, 0 < s.data.length)
    (haddr : ∀ s ∈ f.text_sections ++ f.data_sections, s.address < 2 ^ 32)
    (htot : 256 + sumLen (f.text_sections ++ f.data_sections) < 2 ^ 32) :
    read_sections (encodeFields (fieldsOf f) ++
        (List.replicate 28 0 ++ (payloadOf f.text_sections ++ payloadOf f.data_sections)))
      0x0 0x48 0x90 7 = some f.text_sections := by
  have hsum := sumLen_append f.text_sections f.data_sections
  unfold read_sections
  refine readSectionsAux_spec _ _ _ _ (fun m => 256 + sumLen (f.text_sections.take m))
    f.text_sections 7 0 h7 ?_ ?_
  · intro m hm
    simp only [Nat.zero_add]
    have hmem := List.mem_append_left f.data_sections (getD_mem f.text_sections m hm)
    have htk := sumLen_take_le f.text_sections m hm
    have hlt : 256 + sumLen (f.text_sections.take m) < 2 ^ 32 := by omega
    have hlen : (f.text_sections.getD m defaultSection).data.length < 2 ^ 32 := by omega
    refine ⟨?_, ?_, ?_, ?_, ?_⟩
    · have h := fields_read f h7 h11 m (by omega)
        (List.replicate 28 0 ++ (payloadOf f.text_sections ++ payloadOf f.data_sections))
      rw [fieldsOf_toff f m hm, Nat.mod_eq_of_lt hlt, Nat.mod_eq_of_lt hlt] at h
      simpa using h
    · have h := fields_read f h7 h11 (18 + m) (by omega)
        (List.replicate 28 0 ++ (payloadOf f.text_sections ++ payloadOf f.data_sections))
      rw [fieldsOf_taddr f h7 h11 m hm, Nat.mod_eq_of_lt (haddr _ hmem)] at h
      rw [show 4 * m + 0x48 = 4 * (18 + m) by omega]
      exact h
    · have h := fields_read f h7 h11 (36 + m) (by omega)
        (List.replicate 28 0 ++ (payloadOf f.text_sections ++ payloadOf f.data_sections))
      rw [fieldsOf_tsize f h7 h11 m hm, Nat.mod_eq_of_lt hlen, Nat.mod_eq_of_lt hlen] at h
      rw [show 4 * m + 0x90 = 4 * (36 + m) by omega]
      exact h
    · have := hnz _ hmem
      omega
    · have harith : 256 + sumLen (f.text_sections.take m) +
          (f.text_sections.getD m defaultSection).data.length < 2 ^ 32 := by omega
      rw [Nat.mod_eq_of_lt harith]
      have hp := payload_slice f.text_sections m
        (encodeFields (fieldsOf f) ++ List.replicate 28 0) (payloadOf f.data_sections) hm
      have hPlen : (encodeFields (fieldsOf f) ++ List.replicate 28 0).length = 256 := by
        simp [encodeFields_length, fieldsOf_length f h7 h11]
      rw [hPlen] at hp
      simpa [List.append_assoc] using hp
  · intro hlt
    simp only [Nat.zero_add]
    refine ⟨(fieldsOf f).getD f.text_sections.length 0 % 2 ^ 32,
      (fieldsOf f).getD (18 + f.text_sections.length) 0 % 2 ^ 32, ?_, ?_, ?_⟩
    · simpa using fields_read f h7 h11 f.text_sections.length (by omega)
        (List.replicate 28 0 ++ (payloadOf f.text_sections ++ payloadOf f.data_sections))
    · have h := fields_read f h7 h11 (18 + f.text_sections.length) (by omega)
        (List.replicate 28 0 ++ (payloadOf f.text_sections ++ payloadOf f.data_sections))
      rw [show 4 * f.text_sections.length + 0x48 = 4 * (18 + f.text_sections.length) by omega]
      exact h
    · have h := fields_read f h7 h11 (36 + f.text_sections.length) (by omega)
        (List.replicate 28 0 ++ (payloadOf f.text_sections ++ payloadOf f.data_sections))
      rw [fieldsOf_tsize_zero f h7 h11 hlt] at h
      rw [show 4 * f.text_sections.length + 0x90 = 4 * (36 + f.text_sections.length) by omega]
      simpa using h

theorem read_data_of_to_bytes (f : DolFile) (h7 : f.text_sections.length ≤ 7)
    (h11 : f.data_sections.length ≤ 11)
    (hnz : ∀ s ∈ f.text_sections ++ f.data_sections, 0 < s.data.length)
    (haddr : ∀ s ∈ f.text_sections ++ f.data_sections, s.address < 2 ^ 32)
    (htot : 256 + sumLen (f.text_sections ++ f.data_sections) < 2 ^ 32) :
    read_sections (encodeFields (fieldsOf f) ++
        (List.replicate 28 0 ++ (payloadOf f.text_sections ++ payloadOf f.data_sections)))
      0x1c 0x64 0xac 11 = some f.data_sections := by
  have hsum := sumLen_append f.text_sections f.data_sections
  unfold read_sections
  refine readSectionsAux_spec _ _ _ _
    (fun m => 256 + sumLen f.text_sections + sumLen (f.data_sections.take m))
    f.data_sections 11 0 h11 ?_ ?_
  · intro m hm
    simp only [Nat.zero_add]
    have hmem := List.mem_append_right f.text_sections (getD_mem f.data_sections m hm)
    have htk := sumLen_take_le f.data_sections m hm
    have hlt : 256 + sumLen f.text_sections + sumLen (f.data_sections.take m) < 2 ^ 32 := by
      omega
    have hlen : (f.data_sections.getD m defaultSection).data.length < 2 ^ 32 := by omega
    refine ⟨?_, ?_, ?_, ?_, ?_⟩
    · have h := fields_read f h7 h11 (7 + m) (by omega)
        (List.replicate 28 0 ++ (payloadOf f.text_sections ++ payloadOf f.data_sections))
      rw [fieldsOf_doff f h7 m hm, Nat.mod_eq_of_lt hlt, Nat.mod_eq_of_lt hlt] at h
      rw [show 4 * m + 0x1c = 4 * (7 + m) by omega]
      exact h
    · have h := fields_read f h7 h11 (25 + m) (by omega)
        (List.replicate 28 0 ++ (payloadOf f.text_sections ++ payloadOf f.data_sections))
      rw [fieldsOf_daddr f h7 h11 m hm, Nat.mod_eq_of_lt (haddr _ hmem)] at h
      rw [show 4 * m + 0x64 = 4 * (25 + m) by omega]
      exact h
    · have h := fields_read f h7 h11 (43 + m) (by omega)
        (List.replicate 28 0 ++ (payloadOf f.text_sections ++ payloadOf f.data_sections))
      rw [fieldsOf_dsize f h7 h11 m hm, Nat.mod_eq_of_lt hlen, Nat.mod_eq_of_lt hlen] at h
      rw [show 4 * m + 0xac = 4 * (43 + m) by omega]
      exact h
    · have := hnz _ hmem
      omega
    · have harith : 256 + sumLen f.text_sections + sumLen (f.data_sections.take m) +
          (f.data_sections.getD m defaultSection).data.length < 2 ^ 32 := by omega
      rw [Nat.mod_eq_of_lt harith]
      have hp := payload_slice f.data_sections m
        ((encodeFields (fieldsOf f) ++ List.replicate 28 0) ++ payloadOf f.text_sections)
        [] hm
      have hPlen : ((encodeFields (fieldsOf f) ++ List.replicate 28 0) ++
          payloadOf f.text_sections).length = 256 + sumLen f.text_sections := by
        simp [encodeFields_length, fieldsOf_length f h7 h11, payloadOf_length]
        omega
      rw [hPlen, List.append_nil] at hp
      simpa [List.append_assoc] using hp
  · intro hlt
    simp only [Nat.zero_add]
    refine ⟨(fieldsOf f).getD (7 + f.data_sections.length) 0 % 2 ^ 32,
      (fieldsOf f).getD (25 + f.data_sections.length) 0 % 2 ^ 32, ?_, ?_, ?_⟩
    · have h := fields_read f h7 h11 (7 + f.data_sections.length) (by omega)
        (List.replicate 28 0 ++ (payloadOf f.text_sections ++ payloadOf f.data_sections))
      rw [show 4 * f.data_sections.length + 0x1c = 4 * (7 + f.data_sections.length) by omega]
      exact h
    · have h := fields_read f h7 h11 (25 + f.data_sections.length) (by omega)
        (List.replicate 28 0 ++ (payloadOf f.text_sections ++ payloadOf f.data_sections))
      rw [show 4 * f.data_sections.length + 0x64 = 4 * (25 + f.data_sections.length) by omega]
      exact h
    · have h := fields_read f h7 h11 (43 + f.data_sections.length) (by omega)
        (List.replicate 28 0 ++ (payloadOf f.text_sections ++ payloadOf f.data_sections))
      rw [fieldsOf_dsize_zero f h7 h11 hlt] at h
      rw [show 4 * f.data_sections.length + 0xac = 4 * (43 + f.data_sections.length) by omega]
      simpa using h

/-- Claim C1, amended.  Round trip of the structure: for an image within
table capacity whose sections all carry at least one byte, whose addresses,
BSS fields and entry point fit in a `u32`, and whose total encoded size fits
in a `u32` (so the header offset casts are lossless), parsing the serialized
bytes returns exactly the original image: same section addresses, same
section byte contents, same order, same BSS address and size, same entry
point.  The nonzero-length requirement is forced by the counterexample
`c1_zero_length_cex`: a zero section size is the table terminator of the
format, so zero-length sections cannot survive the round trip. -/
theorem c1_round_trip (f : DolFile) (h7 : f.text_sections.length ≤ 7)
    (h11 : f.data_sections.length ≤ 11)
    (hnz : ∀ s ∈ f.text_sections ++ f.data_sections, 0 < s.data.length)
    (haddr : ∀ s ∈ f.text_sections ++ f.data_sections, s.address < 2 ^ 32)
    (htot : 256 + sumLen (f.text_sections ++ f.data_sections) < 2 ^ 32)
    (hb : f.bss_address < 2 ^ 32) (hbs : f.bss_size < 2 ^ 32)
    (he : f.entry_point < 2 ^ 32) :
    (DolFile.to_bytes f).bind DolFile.parse = some f := by
  rw [to_bytes_eq f h7 h11]
  simp only [Option.bind_eq_bind, Option.some_bind]
  unfold DolFile.parse
  rw [read_text_of_to_bytes f h7 h11 hnz haddr htot]
  simp only [Option.bind_eq_bind, Option.some_bind]
  rw [read_data_of_to_bytes f h7 h11 hnz haddr htot]
  simp only [Option.bind_eq_bind, Option.some_bind]
  have h54 := fields_read f h7 h11 54 (by omega)
    (List.replicate 28 0 ++ (payloadOf f.text_sections ++ payloadOf f.data_sections))
  rw [fieldsOf_field54 f h7 h11, Nat.mod_eq_of_lt hb,
    show (4 * 54 : Nat) = 0xd8 by norm_num] at h54
  have h55 := fields_read f h7 h11 55 (by omega)
    (List.replicate 28 0 ++ (payloadOf f.text_sections ++ payloadOf f.data_sections))
  rw [fieldsOf_field55 f h7 h11, Nat.mod_eq_of_lt hbs,
    show (4 * 55 : Nat) = 0xdc by norm_num] at h55
  have h56 := fields_read f h7 h11 56 (by omega)
    (List.replicate 28 0 ++ (payloadOf f.text_sections ++ payloadOf f.data_sections))
  rw [fieldsOf_field56 f h7 h11, Nat.mod_eq_of_lt he,
    show (4 * 56 : Nat) = 0xe0 by norm_num] at h56
  rw [h54]
  simp only [Option.bind_eq_bind, Option.some_bind]
  rw [h55]
  simp only [Option.bind_eq_bind, Option.some_bind]
  rw [h56]
  simp only [Option.bind_eq_bind, Option.some_bind]

/-- Concrete image with a single zero-length code section, used to refute
the unamended round-trip claim. -/
def zeroLenImage : DolFile :=
  { text_sections := [{ address := 0x80003000, data := [] }], data_sections := [],
    bss_address := 0, bss_size := 0, entry_point := 0 }

set_option maxRecDepth 100000 in
/-- Claim C1, counterexample to the claim as stated.  The image has one code
section (of length zero, which the claim as written allows: it bounds only
the section counts), yet decoding its encoding yields an image with no
sections at all, because a zero size field terminates the section table. -/
theorem c1_zero_length_cex :
    (DolFile.to_bytes zeroLenImage).bind DolFile.parse
        = some { text_sections := [], data_sections := [], bss_address := 0,
                 bss_size := 0, entry_point := 0 } ∧
    (DolFile.to_bytes zeroLenImage).bind DolFile.parse ≠ some zeroLenImage := by
  decide

set_option maxRecDepth 100000 in
/-- Claim C1, witness: the round-trip theorem applied to a concrete image
with one code section and one data section. -/
theorem c1_round_trip_witness :
    (DolFile.to_bytes
        { text_sections := [{ address := 0x80003000, data := [1, 2, 3, 4] }],
          data_sections := [{ address := 0x80005000, data := [5, 6] }],
          bss_address := 0x80500000, bss_size := 0x1234,
          entry_point := 0x80003100 }).bind DolFile.parse
      = some
        { text_sections := [{ address := 0x80003000, data := [1, 2, 3, 4] }],
          data_sections := [{ address := 0x80005000, data := [5, 6] }],
          bss_address := 0x80500000, bss_size := 0x1234,
          entry_point := 0x80003100 } :=
  c1_round_trip _ (by decide) (by decide) (by decide) (by decide) (by decide)
    (by decide) (by decide) (by decide)

/-! Lemmas about the patcher. -/

theorem patchSections_none_of_mem (secs : List Section) (a v : Nat)
    (h : ∀ s ∈ secs, sectionContains s a = false) :
    patchSections secs a v = none := by
  induction secs with
  | nil => rfl
  | cons s rest ih =>
    have h0 := h s (List.mem_cons_self ..)
    unfold patchSections
    rw [h0]
    simp only [Bool.false_eq_true, if_false]
    rw [ih (fun t ht => h t (List.mem_cons_of_mem _ ht))]
    rfl

theorem sec_getD_append_left (A B : List Section) (k : Nat) (h : k < A.length) :
    (A ++ B).getD k defaultSection = A.getD k defaultSection :=
  List.getD_append _ _ _ _ h

theorem sec_getD_append_right (A B : List Section) (k : Nat) :
    (A ++ B).getD (A.length + k) defaultSection = B.getD k defaultSection := by
  rw [List.getD_append_right A B _ (A.length + k) (by omega)]
  congr 1
  omega

theorem sec_set_append_left (A B : List Section) (j : Nat) (x : Section)
    (h : j < A.length) : A.set j x ++ B = (A ++ B).set j x := by
  induction A generalizing j with
  | nil => simp at h
  | cons s rest ih =>
    cases j with
    | zero => rfl
    | succ j => simp [List.set, ih j (by simpa using h)]

theorem sec_set_append_right (A B : List Section) (j : Nat) (x : Section)
    (h : A.length ≤ j) : A ++ B.set (j - A.length) x = (A ++ B).set j x := by
  induction A generalizing j with
  | nil => simp
  | cons s rest ih =>
    cases j with
    | zero => simp at h
    | succ j =>
      simp only [List.cons_append, List.set]
      rw [show j + 1 - (s :: rest).length = j - rest.length by simp]
      rw [ih j (by simpa using h)]
      rfl

theorem write_u32_length_eq (data : List Nat) (off v : Nat) (d : List Nat)
    (h : write_u32 data off v = some d) : d.length = data.length := by
  unfold write_u32 at h
  by_cases hc : off + 4 ≤ data.length
  · rw [if_pos hc] at h
    obtain rfl := (Option.some.injEq ..).mp h.symm |>.symm
    simp [beBytes, length_take_of_le (show off ≤ data.length by omega)]
    omega
  · rw [if_neg hc] at h
    exact absurd h (by simp)

theorem patchSections_found (secs : List Section) : ∀ (j a v : Nat),
    j < secs.length →
    (∀ k, k < j → sectionContains (secs.getD k defaultSection) a = false) →
    sectionContains (secs.getD j defaultSection) a = true →
    patchSections secs a v
      = some ((write_u32 (secs.getD j defaultSection).data
            (a - (secs.getD j defaultSection).address) v).map
          (fun d => secs.set j { address := (secs.getD j defaultSection).address,
                                 data := d })) := by
  induction secs with
  | nil => intro j a v hj; simp at hj
  | cons s rest ih =>
    intro j a v hj hbefore hfound
    cases j with
    | zero =>
      simp only [List.getD_cons_zero] at hfound ⊢
      unfold patchSections
      rw [hfound]
      rfl
    | succ j =>
      have h0 := hbefore 0 (by omega)
      simp only [List.getD_cons_zero] at h0
      simp only [List.getD_cons_succ] at hfound ⊢
      unfold patchSections
      rw [h0]
      simp only [Bool.false_eq_true, if_false]
      rw [ih j a v (by simpa using hj)
        (fun k hk => by simpa using hbefore (k + 1) (by omega)) hfound]
      cases hw : write_u32 (rest.getD j defaultSection).data
          (a - (rest.getD j defaultSection).address) v with
      | none => rfl
      | some d => rfl

theorem applyInstruction_none (f : DolFile) (ins : Instruction)
    (h : ∀ s ∈ f.text_sections ++ f.data_sections, sectionContains s ins.address = false) :
    f.applyInstruction ins = none := by
  unfold DolFile.applyInstruction
  rw [patchSections_none_of_mem f.text_sections ins.address ins.data
    (fun s hs => h s (List.mem_append_left _ hs))]
  rw [patchSections_none_of_mem f.data_sections ins.address ins.data
    (fun s hs => h s (List.mem_append_right _ hs))]

theorem applyInstruction_found_text (f : DolFile) (a v j : Nat)
    (hj : j < f.text_sections.length)
    (hbefore : ∀ k, k < j →
      sectionContains (f.text_sections.getD k defaultSection) a = false)
    (hfound : sectionContains (f.text_sections.getD j defaultSection) a = true) :
    f.applyInstruction { address := a, data := v }
      = (write_u32 (f.text_sections.getD j defaultSection).data
            (a - (f.text_sections.getD j defaultSection).address) v).map
          (fun d =>
            { f with
              text_sections := f.text_sections.set j
                { address := (f.text_sections.getD j defaultSection).address,
                  data := d } }) := by
  unfold DolFile.applyInstruction
  rw [patchSections_found f.text_sections j a v hj hbefore hfound]
  cases hw : write_u32 (f.text_sections.getD j defaultSection).data
      (a - (f.text_sections.getD j defaultSection).address) v with
  | none => rfl
  | some d => rfl

theorem applyInstruction_found_data (f : DolFile) (a v j : Nat)
    (htext : ∀ s ∈ f.text_sections, sectionContains s a = false)
    (hj : j < f.data_sections.length)
    (hbefore : ∀ k, k < j →
      sectionContains (f.data_sections.getD k defaultSection) a = false)
    (hfound : sectionContains (f.data_sections.getD j defaultSection) a = true) :
    f.applyInstruction { address := a, data := v }
      = (write_u32 (f.data_sections.getD j defaultSection).data
            (a - (f.data_sections.getD j defaultSection).address) v).map
          (fun d =>
            { f with
              data_sections := f.data_sections.set j
                { address := (f.data_sections.getD j defaultSection).address,
                  data := d } }) := by
  unfold DolFile.applyInstruction
  rw [patchSections_none_of_mem f.text_sections a v htext]
  rw [patchSections_found f.data_sections j a v hj hbefore hfound]
  cases hw : write_u32 (f.data_sections.getD j defaultSection).data
      (a - (f.data_sections.getD j defaultSection).address) v with
  | none => rfl
  | some d => rfl

/-- The patch-relevant shape of a section list: addresses and buffer
lengths.  Patching never changes it, because a successful 4-byte write
preserves the buffer length. -/
def shapeOf (secs : List Section) : List (Nat × Nat) :=
  secs.map (fun s => (s.address, s.data.length))

theorem contains_congr (s t : Section) (a : Nat) (h1 : s.address = t.address)
    (h2 : s.data.length = t.data.length) :
    sectionContains s a = sectionContains t a := by
  simp [sectionContains, h1, h2]

theorem patch_cons (f : DolFile) (ins : Instruction) (rest : List Instruction) :
    f.patch (ins :: rest) = match f.applyInstruction ins with
      | some f2 => f2.patch rest
      | none => (f, false) := rfl

theorem patchSections_shape (secs : List Section) : ∀ (a v : Nat) (l : List Section),
    patchSections secs a v = some (some l) → shapeOf l = shapeOf secs := by
  induction secs with
  | nil => intro a v l h; exact absurd h (by simp [patchSections])
  | cons s rest ih =>
    intro a v l h
    unfold patchSections at h
    by_cases hc : sectionContains s a = true
    · rw [hc] at h
      simp only [if_true] at h
      cases hw : write_u32 s.data (a - s.address) v with
      | none => rw [hw] at h; exact Option.noConfusion (Option.some.inj h)
      | some d =>
        rw [hw] at h
        obtain rfl := Option.some.inj (Option.some.inj h)
        simp [shapeOf, write_u32_length_eq _ _ _ _ hw]
    · rw [Bool.not_eq_true] at hc
      rw [hc] at h
      simp only [Bool.false_eq_true, if_false] at h
      cases hr : patchSections rest a v with
      | none => rw [hr] at h; exact Option.noConfusion h
      | some r =>
        rw [hr] at h
        cases r with
        | none => exact Option.noConfusion (Option.some.inj h)
        | some l2 =>
          obtain rfl := Option.some.inj (Option.some.inj h)
          have hshape := ih a v l2 hr
          simp only [shapeOf, List.map_cons] at hshape ⊢
          rw [hshape]

theorem applyInstruction_shape (f f2 : DolFile) (ins : Instruction)
    (h : f.applyInstruction ins = some f2) :
    shapeOf f2.text_sections = shapeOf f.text_sections ∧
    shapeOf f2.data_sections = shapeOf f.data_sections ∧
    f2.bss_address = f.bss_address ∧ f2.bss_size = f.bss_size ∧
    f2.entry_point = f.entry_point := by
  unfold DolFile.applyInstruction at h
  cases ht : patchSections f.text_sections ins.address ins.data with
  | some r =>
    rw [ht] at h
    cases r with
    | none => exact Option.noConfusion h
    | some l =>
      obtain rfl := Option.some.inj h
      exact ⟨patchSections_shape _ _ _ _ ht, rfl, rfl, rfl, rfl⟩
  | none =>
    rw [ht] at h
    cases hd : patchSections f.data_sections ins.address ins.data with
    | some r =>
      rw [hd] at h
      cases r with
      | none => exact Option.noConfusion h
      | some l =>
        obtain rfl := Option.some.inj h
        exact ⟨rfl, patchSections_shape _ _ _ _ hd, rfl, rfl, rfl⟩
    | none => rw [hd] at h; exact Option.noConfusion h

theorem patch_shape : ∀ (eds : List Instruction) (f f1 : DolFile) (b : Bool),
    f.patch eds = (f1, b) →
    shapeOf f1.text_sections = shapeOf f.text_sections ∧
    shapeOf f1.data_sections = shapeOf f.data_sections
  | [], f, f1, b, h => by
    obtain rfl : f = f1 := congrArg Prod.fst h
    exact ⟨rfl, rfl⟩
  | ins :: eds, f, f1, b, h => by
    rw [patch_cons] at h
    cases happ : f.applyInstruction ins with
    | none =>
      rw [happ] at h
      obtain rfl : f = f1 := congrArg Prod.fst h
      exact ⟨rfl, rfl⟩
    | some f2 =>
      rw [happ] at h
      obtain ⟨h1, h2, _, _, _⟩ := applyInstruction_shape f f2 ins happ
      obtain ⟨h3, h4⟩ := patch_shape eds f2 f1 b h
      exact ⟨h3.trans h1, h4.trans h2⟩

theorem contains_false_of_shape (l secs : List Section) (a : Nat)
    (hs : shapeOf l = shapeOf secs)
    (h : ∀ s ∈ secs, sectionContains s a = false) :
    ∀ s ∈ l, sectionContains s a = false := by
  induction l generalizing secs with
  | nil => intro s hs2; simp at hs2
  | cons x xs ih =>
    cases secs with
    | nil => simp [shapeOf] at hs
    | cons y ys =>
      simp only [shapeOf, List.map_cons, List.cons.injEq, Prod.mk.injEq] at hs
      obtain ⟨⟨ha, hl⟩, htl⟩ := hs
      intro s hmem
      rcases List.mem_cons.mp hmem with rfl | hmem
      · rw [contains_congr s y a ha hl]
        exact h y (List.mem_cons_self ..)
      · exact ih ys htl (fun t ht => h t (List.mem_cons_of_mem _ ht)) s hmem

theorem patch_append_ok : ∀ (xs : List Instruction) (f f1 : DolFile)
    (ys : List Instruction), f.patch xs = (f1, true) →
    f.patch (xs ++ ys) = f1.patch ys
  | [], f, f1, ys, h => by
    obtain rfl : f = f1 := congrArg Prod.fst h
    simp
  | ins :: xs, f, f1, ys, h => by
    rw [patch_cons] at h
    rw [List.cons_append, patch_cons]
    cases happ : f.applyInstruction ins with
    | none =>
      rw [happ] at h
      exact absurd (congrArg Prod.snd h) (by simp)
    | some f2 =>
      rw [happ] at h
      exact patch_append_ok xs f2 f1 ys h

theorem mem_getD_exists : ∀ (secs : List Section) (s : Section), s ∈ secs →
    ∃ k, k < secs.length ∧ secs.getD k defaultSection = s
  | [], s, h => absurd h (by simp)
  | t :: rest, s, h => by
    rcases List.mem_cons.mp h with rfl | h
    · exact ⟨0, by simp, rfl⟩
    · obtain ⟨k, hk, he⟩ := mem_getD_exists rest s h
      exact ⟨k + 1, by simp; omega, by simpa using he⟩

/-- Claim C2: serializing an image with more than 7 code sections or more
than 11 data sections always fails.  In the Rust code the store into the
fixed-size header array panics at index 7 (resp. 11) before any byte
buffer is produced; the panic is modelled as `none`.  In particular no
truncated buffer that silently drops the excess sections is ever
returned. -/
theorem c2_capacity_overflow (f : DolFile)
    (h : 7 < f.text_sections.length ∨ 11 < f.data_sections.length) :
    DolFile.to_bytes f = none := by
  unfold DolFile.to_bytes
  by_cases h7 : f.text_sections.length ≤ 7
  · have h11 : 11 < f.data_sections.length := by
      rcases h with h | h
      · omega
      · exact h
    rw [toBytesLoop_spec f.text_sections _ _ _ 0 256 []
      (by simpa using h7) (by simpa using h7) (by simpa using h7)]
    simp only [Option.bind_eq_bind, Option.some_bind]
    rw [toBytesLoop_none f.data_sections _ _ _ 0 _ _ (by simp) (by simp)
      (by simp; omega)]
    rfl
  · rw [toBytesLoop_none f.text_sections _ _ _ 0 256 [] (by simp) (by simp)
      (by simp; omega)]
    rfl

/-- Claim C2, witness: an image with 8 one-byte code sections is rejected. -/
theorem c2_capacity_overflow_witness :
    DolFile.to_bytes
      { text_sections := [⟨0, [0]⟩, ⟨1, [0]⟩, ⟨2, [0]⟩, ⟨3, [0]⟩, ⟨4, [0]⟩,
          ⟨5, [0]⟩, ⟨6, [0]⟩, ⟨7, [0]⟩],
        data_sections := [], bss_address := 0, bss_size := 0, entry_point := 0 }
      = none :=
  c2_capacity_overflow _ (Or.inl (by decide))

/-- Claim C3: when the first section that the linear scan resolves for the
edit address (code sections first, then data sections) leaves fewer than 4
bytes after the in-section offset, the patch operation fails (the
`BE::write_u32` panic on the short slice, modelled as `none`, hence the
`false` flag) and the image is left unchanged; no out-of-bounds write
happens. -/
theorem c3_span_overrun (f : DolFile) (a v j : Nat)
    (hj : j < (f.text_sections ++ f.data_sections).length)
    (hbefore : ∀ k, k < j → sectionContains
      ((f.text_sections ++ f.data_sections).getD k defaultSection) a = false)
    (hfound : sectionContains
      ((f.text_sections ++ f.data_sections).getD j defaultSection) a = true)
    (hspan : ((f.text_sections ++ f.data_sections).getD j defaultSection).data.length <
      a - ((f.text_sections ++ f.data_sections).getD j defaultSection).address + 4) :
    f.patch [{ address := a, data := v }] = (f, false) := by
  rw [patch_cons]
  suffices happ : f.applyInstruction { address := a, data := v } = none by rw [happ]
  by_cases hjt : j < f.text_sections.length
  · have e := sec_getD_append_left f.text_sections f.data_sections j hjt
    rw [e] at hfound hspan
    have hb : ∀ k, k < j →
        sectionContains (f.text_sections.getD k defaultSection) a = false := by
      intro k hk
      rw [← sec_getD_append_left f.text_sections f.data_sections k (by omega)]
      exact hbefore k hk
    rw [applyInstruction_found_text f a v j hjt hb hfound]
    rw [show write_u32 (f.text_sections.getD j defaultSection).data
        (a - (f.text_sections.getD j defaultSection).address) v = none by
      unfold write_u32
      rw [if_neg (by omega)]]
    rfl
  · have hjd : j - f.text_sections.length < f.data_sections.length := by
      simp at hj
      omega
    have e : (f.text_sections ++ f.data_sections).getD j defaultSection
        = f.data_sections.getD (j - f.text_sections.length) defaultSection := by
      rw [← sec_getD_append_right f.text_sections f.data_sections
        (j - f.text_sections.length)]
      congr 1
      omega
    rw [e] at hfound hspan
    have htext : ∀ s ∈ f.text_sections, sectionContains s a = false := by
      intro s hs
      obtain ⟨k, hk, rfl⟩ := mem_getD_exists f.text_sections s hs
      rw [← sec_getD_append_left f.text_sections f.data_sections k hk]
      exact hbefore k (by omega)
    have hb : ∀ k, k < j - f.text_sections.length →
        sectionContains (f.data_sections.getD k defaultSection) a = false := by
      intro k hk
      rw [← sec_getD_append_right f.text_sections f.data_sections k]
      exact hbefore (f.text_sections.length + k) (by omega)
    rw [applyInstruction_found_data f a v (j - f.text_sections.length) htext hjd hb hfound]
    rw [show write_u32
        (f.data_sections.getD (j - f.text_sections.length) defaultSection).data
        (a - (f.data_sections.getD (j - f.text_sections.length) defaultSection).address) v
        = none by
      unfold write_u32
      rw [if_neg (by omega)]]
    rfl

/-- Claim C3, witness: an 8-byte section and an edit at in-section offset 6,
so the 4-byte write would cross the end of the buffer; patch fails and the
image is unchanged. -/
theorem c3_span_overrun_witness :
    DolFile.patch
      { text_sections := [{ address := 0x80004000, data := [1, 2, 3, 4, 5, 6, 7, 8] }],
        data_sections := [], bss_address := 0, bss_size := 0, entry_point := 0 }
      [{ address := 0x80004006, data := 0xDEADBEEF }]
      = ({ text_sections := [{ address := 0x80004000, data := [1, 2, 3, 4, 5, 6, 7, 8] }],
           data_sections := [], bss_address := 0, bss_size := 0, entry_point := 0 }, false) :=
  c3_span_overrun _ 0x80004006 0xDEADBEEF 0 (by decide)
    (fun k hk => absurd hk (by omega)) (by decide) (by decide)

/-- Claim C5 (amended): first-failure-aborts batch semantics.  If the edits
before the unresolvable edit all apply successfully (hypothesis
`f.patch pre = (f1, true)`) and `bad.address` lies in no section — section
addresses and lengths are never changed by patching, so testing containment
against the original image is equivalent — then the whole batch returns the
state `f1` in which exactly the earlier edits are applied, with the failure
flag: nothing at or after the unresolvable edit is applied, and nothing is
rolled back.  The requirement that the earlier edits apply cleanly is
forced by the counterexample `c5_overrun_before_bad_cex`. -/
theorem c5_first_failure_aborts (f f1 : DolFile) (pre post : List Instruction)
    (bad : Instruction)
    (h1 : f.patch pre = (f1, true))
    (h2 : ∀ s ∈ f.text_sections ++ f.data_sections,
      sectionContains s bad.address = false) :
    f.patch (pre ++ bad :: post) = (f1, false) := by
  rw [patch_append_ok pre f f1 _ h1]
  obtain ⟨hst, hsd⟩ := patch_shape pre f f1 true h1
  have h2x : ∀ s ∈ f1.text_sections ++ f1.data_sections,
      sectionContains s bad.address = false := by
    intro s hs
    rcases List.mem_append.mp hs with hs | hs
    · exact contains_false_of_shape f1.text_sections f.text_sections bad.address hst
        (fun t ht => h2 t (List.mem_append_left _ ht)) s hs
    · exact contains_false_of_shape f1.data_sections f.data_sections bad.address hsd
        (fun t ht => h2 t (List.mem_append_right _ ht)) s hs
  rw [patch_cons, applyInstruction_none f1 bad h2x]

/-- Concrete image for the C5 counterexample: one 4-byte code section. -/
def tinyImage : DolFile :=
  { text_sections := [{ address := 0, data := [0, 0, 0, 0] }], data_sections := [],
    bss_address := 0, bss_size := 0, entry_point := 0 }

/-- Claim C5, counterexample to the claim as stated.  In the batch the
second edit (address 9999) is the first and only edit whose address is
contained in no section, so the claim as written requires the first edit to
have been applied when the operation fails.  But the first edit (address 1,
inside the only section, which ends 3 bytes later) aborts with the 4-byte
span overrun before the unresolvable edit is even examined: the operation
does fail, yet the resulting image is unchanged — the first edit was not
applied, refuting the claim. -/
theorem c5_overrun_before_bad_cex :
    DolFile.patch tinyImage
        [{ address := 1, data := 0xAABBCCDD }, { address := 9999, data := 1 }]
      = (tinyImage, false) ∧
    sectionContains { address := 0, data := [0, 0, 0, 0] } 1 = true ∧
    (∀ s ∈ tinyImage.text_sections ++ tinyImage.data_sections,
      sectionContains s 9999 = false) ∧
    (DolFile.patch tinyImage
        [{ address := 1, data := 0xAABBCCDD }, { address := 9999, data := 1 }]
      ).1.text_sections = [{ address := 0, data := [0, 0, 0, 0] }] := by
  decide

/-- Claim C5, witness: a 3-edit batch whose 2nd edit is unresolvable; the
1st edit is applied in the result, edits 2 and 3 are not, failure is
reported. -/
theorem c5_first_failure_aborts_witness :
    DolFile.patch
      { text_sections := [{ address := 0x80004000, data := [0, 0, 0, 0, 0, 0, 0, 0] }],
        data_sections := [], bss_address := 0, bss_size := 0, entry_point := 0 }
      ([{ address := 0x80004000, data := 0x11223344 }] ++
        { address := 0x90000000, data := 5 } ::
          [{ address := 0x80004004, data := 0x55667788 }])
      = ({ text_sections :=
            [{ address := 0x80004000, data := [0x11, 0x22, 0x33, 0x44, 0, 0, 0, 0] }],
           data_sections := [], bss_address := 0, bss_size := 0, entry_point := 0 },
         false) :=
  c5_first_failure_aborts _ _ _ _ _ (by decide) (by decide)

theorem contains_iff_exact (s : Section) (a : Nat)
    (h : s.address + s.data.length < 2 ^ 32) :
    sectionContains s a = true ↔ (s.address ≤ a ∧ a < s.address + s.data.length) := by
  unfold sectionContains
  rw [Nat.mod_eq_of_lt (show s.data.length < 2 ^ 32 by omega), Nat.mod_eq_of_lt h]
  simp [Bool.and_eq_true, decide_eq_true_iff]

/-- Claim C10: the containment test of the patcher computes the section end
as a wrapping 32-bit sum.  For an image whose sections all satisfy
`2 ^ 32 < address + length` (with both fields in `u32` range), the wrapped
end is smaller than the section address, so every address — in particular
every address actually inside such a section — fails the containment test
and the patch reports failure without writing anything. -/
theorem c10_wrapped_containment (f : DolFile) (a v : Nat)
    (hwrap : ∀ s ∈ f.text_sections ++ f.data_sections,
      s.address < 2 ^ 32 ∧ s.data.length < 2 ^ 32 ∧
        2 ^ 32 < s.address + s.data.length)
    (ha : a < 2 ^ 32)
    (hin : ∃ s ∈ f.text_sections ++ f.data_sections,
      s.address ≤ a ∧ a < s.address + s.data.length) :
    f.patch [{ address := a, data := v }] = (f, false) := by
  have hall : ∀ s ∈ f.text_sections ++ f.data_sections,
      sectionContains s a = false := by
    intro s hs
    obtain ⟨h1, h2, h3⟩ := hwrap s hs
    unfold sectionContains
    rw [Nat.mod_eq_of_lt h2]
    rw [show (s.address + s.data.length) % 2 ^ 32
      = s.address + s.data.length - 2 ^ 32 by omega]
    refine Bool.eq_false_iff.mpr fun hc => ?_
    rw [Bool.and_eq_true, decide_eq_true_iff, decide_eq_true_iff] at hc
    omega
  rw [patch_cons, applyInstruction_none f _ hall]

/-- Concrete image for the C10 witness: a code section whose load address
plus length exceeds the 32-bit range. -/
def wrapImage : DolFile :=
  { text_sections := [{ address := 0xFFFFFFF0, data := List.replicate 0x20 0 }],
    data_sections := [], bss_address := 0, bss_size := 0, entry_point := 0 }

/-- Claim C10, witness: address 0xFFFFFFF8 lies inside the section in exact
arithmetic, yet the wrapped containment test rejects it and patch fails. -/
theorem c10_wrapped_containment_witness :
    DolFile.patch wrapImage [{ address := 0xFFFFFFF8, data := 7 }]
      = (wrapImage, false) :=
  c10_wrapped_containment _ _ _ (by decide) (by decide) (by decide)

/-- Claim C7 (amended): exact patch semantics in the non-wrapping regime.
Provided every section satisfies `address + length < 2 ^ 32` (for sections
reaching or passing the top of the 32-bit range the wrapped containment
test fails instead, see claims C10 and the counterexample `c7_wrap_cex`)
and the 4-byte span fits inside the resolved section, patch resolves the
edit to the first section in code-then-data order whose half-open range
`[address, address + length)` contains the edit address, replaces exactly
the 4 bytes at offset `a - address` of that section with the big-endian
encoding of the value, and leaves every other byte, every other section,
the section split between tables, and the BSS and entry fields unchanged;
the operation succeeds. -/
theorem c7_patch_exact (f : DolFile) (a v j : Nat) (s : Section)
    (hover : ∀ t ∈ f.text_sections ++ f.data_sections,
      t.address + t.data.length < 2 ^ 32)
    (hj : j < (f.text_sections ++ f.data_sections).length)
    (hs : (f.text_sections ++ f.data_sections).getD j defaultSection = s)
    (hbefore : ∀ k, k < j →
      ¬(((f.text_sections ++ f.data_sections).getD k defaultSection).address ≤ a ∧
        a < ((f.text_sections ++ f.data_sections).getD k defaultSection).address +
          ((f.text_sections ++ f.data_sections).getD k defaultSection).data.length))
    (hcont : s.address ≤ a ∧ a < s.address + s.data.length)
    (hspan : a - s.address + 4 ≤ s.data.length) :
    (f.patch [{ address := a, data := v }]).2 = true ∧
    (f.patch [{ address := a, data := v }]).1.text_sections ++
        (f.patch [{ address := a, data := v }]).1.data_sections
      = (f.text_sections ++ f.data_sections).set j
          { address := s.address,
            data := s.data.take (a - s.address) ++ beBytes v ++
              s.data.drop (a - s.address + 4) } ∧
    (f.patch [{ address := a, data := v }]).1.text_sections.length
      = f.text_sections.length ∧
    (f.patch [{ address := a, data := v }]).1.bss_address = f.bss_address ∧
    (f.patch [{ address := a, data := v }]).1.bss_size = f.bss_size ∧
    (f.patch [{ address := a, data := v }]).1.entry_point = f.entry_point := by
  subst hs
  by_cases hjt : j < f.text_sections.length
  · have e := sec_getD_append_left f.text_sections f.data_sections j hjt
    rw [e] at hcont hspan ⊢
    have hmem := List.mem_append_left f.data_sections (getD_mem f.text_sections j hjt)
    have hfound := (contains_iff_exact _ a (hover _ hmem)).mpr hcont
    have hb : ∀ k, k < j →
        sectionContains (f.text_sections.getD k defaultSection) a = false := by
      intro k hk
      have hkt : k < f.text_sections.length := by omega
      have ek := sec_getD_append_left f.text_sections f.data_sections k hkt
      have hmemk := List.mem_append_left f.data_sections (getD_mem f.text_sections k hkt)
      have hnot := hbefore k hk
      rw [ek] at hnot
      exact Bool.eq_false_iff.mpr
        (fun hc => hnot ((contains_iff_exact _ a (hover _ hmemk)).mp hc))
    rw [patch_cons, applyInstruction_found_text f a v j hjt hb hfound,
      write_u32_some _ _ _ (by omega)]
    refine ⟨rfl, ?_, ?_, rfl, rfl, rfl⟩
    · exact sec_set_append_left f.text_sections f.data_sections j _ hjt
    · exact List.length_set ..
  · have htn : f.text_sections.length ≤ j := by omega
    have hjd : j - f.text_sections.length < f.data_sections.length := by
      simp at hj
      omega
    have e : (f.text_sections ++ f.data_sections).getD j defaultSection
        = f.data_sections.getD (j - f.text_sections.length) defaultSection := by
      rw [← sec_getD_append_right f.text_sections f.data_sections
        (j - f.text_sections.length)]
      congr 1
      omega
    rw [e] at hcont hspan ⊢
    have hmem := List.mem_append_right f.text_sections
      (getD_mem f.data_sections (j - f.text_sections.length) hjd)
    have hfound := (contains_iff_exact _ a (hover _ hmem)).mpr hcont
    have htext : ∀ t ∈ f.text_sections, sectionContains t a = false := by
      intro t ht
      obtain ⟨k, hk, rfl⟩ := mem_getD_exists f.text_sections t ht
      have ek := sec_getD_append_left f.text_sections f.data_sections k hk
      have hmemk := List.mem_append_left f.data_sections (getD_mem f.text_sections k hk)
      have hnot := hbefore k (by omega)
      rw [ek] at hnot
      exact Bool.eq_false_iff.mpr
        (fun hc => hnot ((contains_iff_exact _ a (hover _ hmemk)).mp hc))
    have hb : ∀ k, k < j - f.text_sections.length →
        sectionContains (f.data_sections.getD k defaultSection) a = false := by
      intro k hk
      have ek := sec_getD_append_right f.text_sections f.data_sections k
      have hmemk := List.mem_append_right f.text_sections
        (getD_mem f.data_sections k (by omega))
      have hnot := hbefore (f.text_sections.length + k) (by omega)
      rw [ek] at hnot
      exact Bool.eq_false_iff.mpr
        (fun hc => hnot ((contains_iff_exact _ a (hover _ hmemk)).mp hc))
    rw [patch_cons, applyInstruction_found_data f a v (j - f.text_sections.length)
      htext hjd hb hfound, write_u32_some _ _ _ (by omega)]
    refine ⟨rfl, ?_, rfl, rfl, rfl, rfl⟩
    exact sec_set_append_right f.text_sections f.data_sections j _ htn

/-- Concrete image for the C7 counterexample: a section that ends exactly at
the top of the 32-bit address space, and a section with room for no 4-byte
write at the probed offset. -/
def topImage : DolFile :=
  { text_sections := [{ address := 0xFFFFFFF0, data := List.replicate 0x10 0 }],
    data_sections := [], bss_address := 0, bss_size := 0, entry_point := 0 }

/-- Concrete image for the C7 counterexample, span part: one 8-byte section. -/
def shortImage : DolFile :=
  { text_sections := [{ address := 0, data := [9, 9, 9, 9, 9, 9, 9, 9] }],
    data_sections := [], bss_address := 0, bss_size := 0, entry_point := 0 }

set_option maxRecDepth 1000000 in
/-- Claim C7, counterexample to the claim as stated.  First conjunct pair:
address 0xFFFFFFF8 is contained in the only section of `topImage` under the
half-open test stated by the claim (the section spans 0xFFFFFFF0 to exactly
2 ^ 32), yet patch performs no write and fails, because the code computes
the section end with a wrapping 32-bit sum, which here is 0.  Last
conjunct: address 6 is contained in the only section of `shortImage`, yet
no 4-byte write happens either — the span would overrun the buffer — so the
claimed unconditional overwrite is also false there. -/
theorem c7_wrap_cex :
    DolFile.patch topImage [{ address := 0xFFFFFFF8, data := 0xDEADBEEF }]
      = (topImage, false) ∧
    ((0xFFFFFFF0 : Nat) ≤ 0xFFFFFFF8 ∧
      (0xFFFFFFF8 : Nat) < 0xFFFFFFF0 + (List.replicate 0x10 (0 : Nat)).length) ∧
    DolFile.patch shortImage [{ address := 6, data := 1 }] = (shortImage, false) ∧
    ((0 : Nat) ≤ 6 ∧ (6 : Nat) < 0 + 8) := by
  decide

set_option maxRecDepth 1000000 in
/-- Claim C7, witness: the amended theorem applied to the concrete example
of the specification — a section at 0x80004000 of length 0x100, patching
address 0x80004010 with 0xDEADBEEF writes the bytes DE AD BE EF at offset
0x10 and leaves everything else unchanged. -/
theorem c7_patch_exact_witness :
    (DolFile.patch
      { text_sections := [{ address := 0x80004000, data := List.replicate 0x100 0 }],
        data_sections := [], bss_address := 0, bss_size := 0, entry_point := 0 }
      [{ address := 0x80004010, data := 0xDEADBEEF }]).2 = true ∧
    (DolFile.patch
      { text_sections := [{ address := 0x80004000, data := List.replicate 0x100 0 }],
        data_sections := [], bss_address := 0, bss_size := 0, entry_point := 0 }
      [{ address := 0x80004010, data := 0xDEADBEEF }]).1.text_sections ++
      (DolFile.patch
      { text_sections := [{ address := 0x80004000, data := List.replicate 0x100 0 }],
        data_sections := [], bss_address := 0, bss_size := 0, entry_point := 0 }
      [{ address := 0x80004010, data := 0xDEADBEEF }]).1.data_sections
      = (([{ address := 0x80004000, data := List.replicate 0x100 0 }] : List Section)
          ++ []).set 0
          { address := 0x80004000,
            data := (List.replicate 0x100 0).take (0x80004010 - 0x80004000) ++
              beBytes 0xDEADBEEF ++
              (List.replicate 0x100 0).drop (0x80004010 - 0x80004000 + 4) } ∧
    (DolFile.patch
      { text_sections := [{ address := 0x80004000, data := List.replicate 0x100 0 }],
        data_sections := [], bss_address := 0, bss_size := 0, entry_point := 0 }
      [{ address := 0x80004010, data := 0xDEADBEEF }]).1.text_sections.length = 1 ∧
    (DolFile.patch
      { text_sections := [{ address := 0x80004000, data := List.replicate 0x100 0 }],
        data_sections := [], bss_address := 0, bss_size := 0, entry_point := 0 }
      [{ address := 0x80004010, data := 0xDEADBEEF }]).1.bss_address = 0 ∧
    (DolFile.patch
      { text_sections := [{ address := 0x80004000, data := List.replicate 0x100 0 }],
        data_sections := [], bss_address := 0, bss_size := 0, entry_point := 0 }
      [{ address := 0x80004010, data := 0xDEADBEEF }]).1.bss_size = 0 ∧
    (DolFile.patch
      { text_sections := [{ address := 0x80004000, data := List.replicate 0x100 0 }],
        data_sections := [], bss_address := 0, bss_size := 0, entry_point := 0 }
      [{ address := 0x80004010, data := 0xDEADBEEF }]).1.entry_point = 0 :=
  c7_patch_exact _ 0x80004010 0xDEADBEEF 0 _ (by decide) (by decide) rfl
    (fun k hk => absurd hk (by omega)) (by decide) (by decide)

/-- Claim C9: append concatenates the code-section lists in original-then-
appended order, likewise the data-section lists, and leaves the BSS address,
BSS size and entry point of the first image exactly as they were. -/
theorem c9_append_frame (f other : DolFile) :
    (f.append other).text_sections = f.text_sections ++ other.text_sections ∧
    (f.append other).data_sections = f.data_sections ++ other.data_sections ∧
    (f.append other).bss_address = f.bss_address ∧
    (f.append other).bss_size = f.bss_size ∧
    (f.append other).entry_point = f.entry_point :=
  ⟨rfl, rfl, rfl, rfl, rfl⟩

/-- The concrete image of claim C8: one code section of length 16 at
address 0x80003000 and no other sections (BSS and entry fields are set to
arbitrary nonzero values to show they do not interfere). -/
def exactImage : DolFile :=
  { text_sections := [{ address := 0x80003000, data := List.replicate 16 7 }],
    data_sections := [], bss_address := 0x80500000, bss_size := 0x1234,
    entry_point := 0x80003100 }

/-- The bytes produced for `exactImage`. -/
def exactBytes : List Nat := (DolFile.to_bytes exactImage).getD []

set_option maxRecDepth 1000000 in
/-- Claim C8: encoding `exactImage` yields a 256-byte header followed by the
16 payload bytes (272 in total); the code-section-0 offset field (a 32-bit
big-endian word at byte 0x0) equals 256, the code-section-0 address field
(at 0x48) equals 0x80003000, the code-section-0 size field (at 0x90) equals
16, every other section slot in all six tables is zero, and the BSS
address, BSS size and entry fields sit at 0xd8, 0xdc and 0xe0. -/
theorem c8_header_exact :
    DolFile.to_bytes exactImage = some exactBytes ∧
    exactBytes.length = 272 ∧
    read_u32 exactBytes 0x0 = some 256 ∧
    read_u32 exactBytes 0x48 = some 0x80003000 ∧
    read_u32 exactBytes 0x90 = some 16 ∧
    ((List.range 7).all fun i => i == 0 ||
      (read_u32 exactBytes (0x0 + 4 * i) == some 0 &&
       read_u32 exactBytes (0x48 + 4 * i) == some 0 &&
       read_u32 exactBytes (0x90 + 4 * i) == some 0)) = true ∧
    ((List.range 11).all fun i =>
      (read_u32 exactBytes (0x1c + 4 * i) == some 0 &&
       read_u32 exactBytes (0x64 + 4 * i) == some 0 &&
       read_u32 exactBytes (0xac + 4 * i) == some 0)) = true ∧
    read_u32 exactBytes 0xd8 = some 0x80500000 ∧
    read_u32 exactBytes 0xdc = some 0x1234 ∧
    read_u32 exactBytes 0xe0 = some 0x80003100 := by
  decide

theorem range_map_getD (k m : Nat) (fn : Nat → Section) (h : m < k) :
    ((List.range k).map fn).getD m defaultSection = fn m := by
  simp [List.getD, List.getElem?_map, List.getElem?_range h]

/-- Claim C6: the section-table scan stops at the first slot whose size
field is zero.  If the slots before `k` all read successfully with nonzero
sizes and in-range data, and slot `k` reads with size zero, then the scan
returns exactly the `k` sections built from slots `0..k-1` — the output is
fully determined by those slots, so the contents of the offset, address or
size fields of any later slot are never consulted. -/
theorem c6_zero_size_terminates (data : List Nat) (oOff aOff lOff maxN k : Nat)
    (O A : Nat → Nat) (D : Nat → List Nat)
    (hk : k < maxN)
    (hpre : ∀ i, i < k →
      read_u32 data (4 * i + oOff) = some (O i) ∧
      read_u32 data (4 * i + aOff) = some (A i) ∧
      read_u32 data (4 * i + lOff) = some (D i).length ∧
      (D i).length ≠ 0 ∧
      sliceRange data (O i) ((O i + (D i).length) % 2 ^ 32) = some (D i))
    (hterm : read_u32 data (4 * k + oOff) = some (O k) ∧
      read_u32 data (4 * k + aOff) = some (A k) ∧
      read_u32 data (4 * k + lOff) = some 0) :
    read_sections data oOff aOff lOff maxN
      = some ((List.range k).map fun i => { address := A i, data := D i }) := by
  unfold read_sections
  refine readSectionsAux_spec data oOff aOff lOff O _ maxN 0 (by simp; omega) ?_ ?_
  · intro m hm
    simp only [List.length_map, List.length_range] at hm
    simp only [Nat.zero_add, range_map_getD k m _ hm]
    exact hpre m hm
  · intro hlt
    simp only [Nat.zero_add, List.length_map, List.length_range]
    exact ⟨O k, A k, hterm.1, hterm.2.1, hterm.2.2⟩

/-- The concrete buffer of the C6 witness: 256-byte header, all zero except
that code slots 0 and 1 point at the 4-byte payload with size 4, slot 2 has
size 0 (the terminator), and slot 3 has the nonzero size 4 — slot 3 must
nevertheless be ignored. -/
def truncBuf : List Nat :=
  (((((List.replicate 256 0).set 2 1).set 6 1).set 0x93 4).set 0x97 4).set 0x9f 4
    ++ [9, 9, 9, 9]

set_option maxRecDepth 1000000 in
/-- Claim C6, witness: scanning the code table of `truncBuf` yields exactly
2 sections although slot 3 carries a nonzero size. -/
theorem c6_zero_size_terminates_witness :
    read_sections truncBuf 0x0 0x48 0x90 7
      = some ((List.range 2).map fun _ => { address := 0, data := [9, 9, 9, 9] }) :=
  c6_zero_size_terminates truncBuf 0x0 0x48 0x90 7 2 (fun i => if i < 2 then 256 else 0)
    (fun _ => 0) (fun _ => [9, 9, 9, 9]) (by decide) (by decide) (by decide)

theorem getD_lt_of_forall (data : List Nat) (hwf : ∀ b ∈ data, b < 256) :
    ∀ k, data.getD k 0 < 256 := by
  induction data with
  | nil => intro k; simp [List.getD]
  | cons b rest ih =>
    intro k
    cases k with
    | zero => exact hwf b (List.mem_cons_self ..)
    | succ k =>
      exact ih (fun t ht => hwf t (List.mem_cons_of_mem _ ht)) k

theorem read_u32_lt (data : List Nat) (off v : Nat)
    (hwf : ∀ b ∈ data, b < 256) (h : read_u32 data off = some v) : v < 2 ^ 32 := by
  unfold read_u32 at h
  by_cases hc : off + 4 ≤ data.length
  · rw [if_pos hc] at h
    obtain rfl := Option.some.inj h
    have g0 := getD_lt_of_forall data hwf off
    have g1 := getD_lt_of_forall data hwf (off + 1)
    have g2 := getD_lt_of_forall data hwf (off + 2)
    have g3 := getD_lt_of_forall data hwf (off + 3)
    omega
  · rw [if_neg hc] at h
    exact Option.noConfusion h

theorem sliceRange_sound (data : List Nat) (start len : Nat) (bytes : List Nat)
    (hs : start < 2 ^ 32) (hl : len < 2 ^ 32) (hnz : len ≠ 0)
    (h : sliceRange data start ((start + len) % 2 ^ 32) = some bytes) :
    start + len ≤ data.length ∧ bytes.length = len ∧
    bytes = (data.drop start).take len := by
  unfold sliceRange at h
  by_cases hw : start + len < 2 ^ 32
  · rw [Nat.mod_eq_of_lt hw] at h
    by_cases hc : start ≤ start + len ∧ start + len ≤ data.length
    · rw [if_pos hc] at h
      obtain rfl := Option.some.inj h
      refine ⟨hc.2, ?_, ?_⟩
      · simp [List.length_take, List.length_drop]
        omega
      · congr 1
        omega
    · rw [if_neg hc] at h
      exact Option.noConfusion h
  · exfalso
    rw [show (start + len) % 2 ^ 32 = start + len - 2 ^ 32 by omega] at h
    by_cases hc : start ≤ start + len - 2 ^ 32 ∧ start + len - 2 ^ 32 ≤ data.length
    · omega
    · rw [if_neg hc] at h
      exact Option.noConfusion h

theorem readSectionsAux_sound (data : List Nat) (oOff aOff lOff : Nat)
    (hwf : ∀ b ∈ data, b < 256) :
    ∀ (fuel i : Nat) (secs : List Section),
    readSectionsAux data oOff aOff lOff fuel i = some secs →
    ∀ m, m < secs.length →
    ∃ off, read_u32 data (4 * (i + m) + oOff) = some off ∧
      read_u32 data (4 * (i + m) + lOff)
        = some ((secs.getD m defaultSection).data.length) ∧
      (secs.getD m defaultSection).data.length ≠ 0 ∧
      off + (secs.getD m defaultSection).data.length ≤ data.length ∧
      (secs.getD m defaultSection).data
        = (data.drop off).take ((secs.getD m defaultSection).data.length) := by
  intro fuel
  induction fuel with
  | zero =>
    intro i secs h m hm
    obtain rfl := Option.some.inj h
    simp at hm
  | succ fuel ih =>
    intro i secs h m hm
    unfold readSectionsAux at h
    cases ho : read_u32 data (4 * i + oOff) with
    | none => rw [ho] at h; exact Option.noConfusion h
    | some offv =>
    cases ha2 : read_u32 data (4 * i + aOff) with
    | none => rw [ho, ha2] at h; exact Option.noConfusion h
    | some addrv =>
    cases hl : read_u32 data (4 * i + lOff) with
    | none => rw [ho, ha2, hl] at h; exact Option.noConfusion h
    | some lenv =>
    rw [ho, ha2, hl] at h
    replace h : (if lenv = 0 then (some [] : Option (List Section))
        else match sliceRange data offv ((offv + lenv) % 2 ^ 32) with
          | some bytes =>
            match readSectionsAux data oOff aOff lOff fuel (i + 1) with
            | some rest => some ({ address := addrv, data := bytes } :: rest)
            | none => none
          | none => none) = some secs := h
    by_cases hz : lenv = 0
    · rw [if_pos hz] at h
      obtain rfl := Option.some.inj h
      simp at hm
    · rw [if_neg hz] at h
      cases hslice : sliceRange data offv ((offv + lenv) % 2 ^ 32) with
      | none => rw [hslice] at h; exact Option.noConfusion h
      | some bytes =>
      rw [hslice] at h
      cases hrest : readSectionsAux data oOff aOff lOff fuel (i + 1) with
      | none => rw [hrest] at h; exact Option.noConfusion h
      | some rest =>
      rw [hrest] at h
      obtain rfl := (Option.some.inj h).symm
      obtain ⟨hle, hblen, hbeq⟩ := sliceRange_sound data offv lenv bytes
        (read_u32_lt data _ _ hwf ho) (read_u32_lt data _ _ hwf hl) hz hslice
      cases m with
      | zero =>
        refine ⟨offv, ?_, ?_, ?_, ?_, ?_⟩
        · simpa using ho
        · simp only [List.getD_cons_zero]
          rw [show 4 * (i + 0) + lOff = 4 * i + lOff by omega, hl, hblen]
        · simp only [List.getD_cons_zero]
          omega
        · simp only [List.getD_cons_zero]
          omega
        · simp only [List.getD_cons_zero]
          rw [hblen]
          exact hbeq
      | succ m =>
        obtain ⟨off, h1, h2, h3, h4, h5⟩ := ih (i + 1) rest hrest m (by simpa using hm)
        have eidx : i + (m + 1) = i + 1 + m := by omega
        refine ⟨off, ?_, ?_, ?_, ?_, ?_⟩
        · rw [eidx]
          exact h1
        · rw [eidx]
          simp only [List.getD_cons_succ]
          exact h2
        · simp only [List.getD_cons_succ]
          exact h3
        · simp only [List.getD_cons_succ]
          exact h4
        · simp only [List.getD_cons_succ]
          exact h5

/-- Claim C4 (amended).  Part 1: the decoder reads the header fields up to
the entry point at bytes 0xe0..0xe3, so any buffer shorter than 228 bytes
makes some header read fail and `parse` aborts (the Rust slice panic,
modelled as `none`) — but, contrary to the claim as stated, a buffer of
228..255 bytes with empty section tables decodes successfully, see
`c4_short_buffer_cex`.  Part 2: whenever `parse` succeeds on a buffer of
byte values, every decoded section is a full, exact, in-bounds copy of the
byte range its slot describes: its length equals the slot size field, the
range lies inside the buffer, and the data equals that range verbatim —
decoding never truncates a section or reads out of bounds. -/
theorem c4_decode_bounds (data : List Nat) :
    (data.length < 228 → DolFile.parse data = none) ∧
    ((∀ b ∈ data, b < 256) → ∀ img, DolFile.parse data = some img →
      (∀ m, m < img.text_sections.length →
        ∃ off, read_u32 data (4 * m + 0x0) = some off ∧
          read_u32 data (4 * m + 0x90)
            = some ((img.text_sections.getD m defaultSection).data.length) ∧
          (img.text_sections.getD m defaultSection).data.length ≠ 0 ∧
          off + (img.text_sections.getD m defaultSection).data.length ≤ data.length ∧
          (img.text_sections.getD m defaultSection).data
            = (data.drop off).take ((img.text_sections.getD m defaultSection).data.length)) ∧
      (∀ m, m < img.data_sections.length →
        ∃ off, read_u32 data (4 * m + 0x1c) = some off ∧
          read_u32 data (4 * m + 0xac)
            = some ((img.data_sections.getD m defaultSection).data.length) ∧
          (img.data_sections.getD m defaultSection).data.length ≠ 0 ∧
          off + (img.data_sections.getD m defaultSection).data.length ≤ data.length ∧
          (img.data_sections.getD m defaultSection).data
            = (data.drop off).take ((img.data_sections.getD m defaultSection).data.length))) := by
  constructor
  · intro hlen
    have he : read_u32 data 0xe0 = none := by
      unfold read_u32
      rw [if_neg (by omega)]
    unfold DolFile.parse
    cases h1 : read_sections data 0x0 0x48 0x90 7 with
    | none => rfl
    | some ts =>
      simp only [Option.bind_eq_bind, Option.some_bind]
      cases h2 : read_sections data 0x1c 0x64 0xac 11 with
      | none => rfl
      | some ds =>
        simp only [Option.bind_eq_bind, Option.some_bind]
        cases h3 : read_u32 data 0xd8 with
        | none => rfl
        | some ba =>
          simp only [Option.bind_eq_bind, Option.some_bind]
          cases h4 : read_u32 data 0xdc with
          | none => rfl
          | some bs =>
            simp only [Option.bind_eq_bind, Option.some_bind]
            rw [he]
            rfl
  · intro hwf img himg
    unfold DolFile.parse at himg
    cases h1 : read_sections data 0x0 0x48 0x90 7 with
    | none => rw [h1] at himg; exact Option.noConfusion himg
    | some ts =>
      rw [h1] at himg
      simp only [Option.bind_eq_bind, Option.some_bind] at himg
      cases h2 : read_sections data 0x1c 0x64 0xac 11 with
      | none => rw [h2] at himg; exact Option.noConfusion himg
      | some ds =>
        rw [h2] at himg
        simp only [Option.bind_eq_bind, Option.some_bind] at himg
        cases h3 : read_u32 data 0xd8 with
        | none => rw [h3] at himg; exact Option.noConfusion himg
        | some ba =>
          rw [h3] at himg
          simp only [Option.bind_eq_bind, Option.some_bind] at himg
          cases h4 : read_u32 data 0xdc with
          | none => rw [h4] at himg; exact Option.noConfusion himg
          | some bs =>
            rw [h4] at himg
            simp only [Option.bind_eq_bind, Option.some_bind] at himg
            cases h5 : read_u32 data 0xe0 with
            | none => rw [h5] at himg; exact Option.noConfusion himg
            | some ep =>
              rw [h5] at himg
              simp only [Option.bind_eq_bind, Option.some_bind] at himg
              obtain rfl := Option.some.inj himg
              constructor
              · intro m hm
                obtain ⟨off, g1, g2, g3, g4, g5⟩ :=
                  readSectionsAux_sound data 0x0 0x48 0x90 hwf 7 0 ts h1 m hm
                exact ⟨off, by simpa using g1, by simpa using g2, g3, g4, g5⟩
              · intro m hm
                obtain ⟨off, g1, g2, g3, g4, g5⟩ :=
                  readSectionsAux_sound data 0x1c 0x64 0xac hwf 11 0 ds h2 m hm
                exact ⟨off, by simpa using g1, by simpa using g2, g3, g4, g5⟩

set_option maxRecDepth 1000000 in
/-- Claim C4, counterexample to the claim as stated: a 228-byte all-zero
buffer is shorter than the 256-byte header, yet `parse` succeeds on it
(returning the empty image), because the decoder never touches bytes
0xe4..0xff of the header. -/
theorem c4_short_buffer_cex :
    DolFile.parse (List.replicate 228 0)
      = some { text_sections := [], data_sections := [], bss_address := 0,
               bss_size := 0, entry_point := 0 } ∧
    (List.replicate 228 0).length < 256 := by
  decide

set_option maxRecDepth 1000000 in
/-- Claim C4, witness: the amended theorem applied to a 100-byte buffer,
which the decoder rejects. -/
theorem c4_decode_bounds_witness :
    DolFile.parse (List.replicate 100 0) = none :=
  (c4_decode_bounds (List.replicate 100 0)).1 (by decide)

end Dol
